import Mathlib

/-!
Shallow embedding of `src/utils/resume_parser.py` (career-counselling-ai).

Text is modelled as `List Char` (`String.data`); Python's `str` methods and
the regular expressions used by the parser are embedded as executable Lean
functions.  Python's `\s`, `\w`, `str.strip`, `str.isupper`, `str.title` are
modelled over the ASCII range (every input appearing in the repository and in
the theorems below is ASCII).  All definitions are structurally recursive so
that concrete inputs evaluate by kernel reduction.
-/

namespace ResumeParser

/-- Convert a string literal to the character-list representation. -/
def strL (s : String) : List Char := s.data

/-- Python `\s` (ASCII range): space, tab, newline, carriage return,
vertical tab, form feed. -/
def pyWS (c : Char) : Bool :=
  c = ' ' ∨ c = '\t' ∨ c = '\n' ∨ c = '\r' ∨ c = '\x0b' ∨ c = '\x0c'

def isDigitC (c : Char) : Bool := '0' ≤ c ∧ c ≤ '9'

def isUpperA (c : Char) : Bool := 'A' ≤ c ∧ c ≤ 'Z'

def isLowerA (c : Char) : Bool := 'a' ≤ c ∧ c ≤ 'z'

def isAlphaA (c : Char) : Bool := isUpperA c ∨ isLowerA c

def isAlnumA (c : Char) : Bool := isAlphaA c ∨ isDigitC c

/-- Python `\w` (ASCII range): letters, digits, underscore. -/
def isWordC (c : Char) : Bool := isAlnumA c ∨ c = '_'

def lowerC (c : Char) : Char := if isUpperA c then Char.ofNat (c.toNat + 32) else c

def upperC (c : Char) : Char := if isLowerA c then Char.ofNat (c.toNat - 32) else c

def lowerL (l : List Char) : List Char := l.map lowerC

def upperL (l : List Char) : List Char := l.map upperC

/-- Python `str.strip()` (ASCII whitespace): drop leading and trailing
whitespace. -/
def pyStrip (l : List Char) : List Char :=
  List.rdropWhile pyWS (List.dropWhile pyWS l)

/-- Python `re.sub(r'\s+', ' ', s)`: every maximal whitespace run becomes a
single space.  The flag records whether the previous character was
whitespace. -/
def collapseGo : Bool → List Char → List Char
  | _, [] => []
  | inWs, c :: cs =>
    if pyWS c then
      (if inWs then collapseGo true cs else ' ' :: collapseGo true cs)
    else c :: collapseGo false cs

def collapseWS (l : List Char) : List Char := collapseGo false l

/-- Embeds `len(s.split())` in Python: the number of maximal non-whitespace runs. -/
def wordCountGo : Bool → List Char → Nat
  | _, [] => 0
  | inWord, c :: cs =>
    if pyWS c then wordCountGo false cs
    else (if inWord then 0 else 1) + wordCountGo true cs

def wordCount (l : List Char) : Nat := wordCountGo false l

/-- Python `s.split(sep)` for a one-character separator: `n` separators give
`n+1` pieces, empty pieces included. -/
def splitOnC (sep : Char) : List Char → List (List Char)
  | [] => [[]]
  | c :: cs =>
    if c = sep then [] :: splitOnC sep cs
    else
      match splitOnC sep cs with
      | p :: ps => (c :: p) :: ps
      | [] => [[c]]

/-- Python `needle in hay` (substring containment, case sensitive). -/
def containsSub (needle : List Char) : List Char → Bool
  | [] => needle.isPrefixOf []
  | c :: cs => needle.isPrefixOf (c :: cs) || containsSub needle cs

/-- Case-insensitive prefix test (both sides lowered), used to embed
`re.IGNORECASE` literal matching. -/
def isPrefixCI (needle hay : List Char) : Bool :=
  (lowerL needle).isPrefixOf (lowerL hay)

/-- Python `s.split(sep, 1)[1]`: everything after the first occurrence of the
separator. -/
def afterFirstC (sep : Char) (l : List Char) : List Char :=
  (l.dropWhile (fun c => ¬ c = sep)).drop 1

/-- Python `list(dict.fromkeys(xs))`: deduplicate keeping the first
occurrence. -/
def dedupKeepFirstGo (seen : List (List Char)) : List (List Char) → List (List Char)
  | [] => []
  | x :: xs =>
    if x ∈ seen then dedupKeepFirstGo seen xs
    else x :: dedupKeepFirstGo (x :: seen) xs

def dedupKeepFirst (l : List (List Char)) : List (List Char) :=
  dedupKeepFirstGo [] l

/-- Model of a CPython `set` of strings as an insertion-ordered list without
duplicates.  CPython's iteration order over a string set is hash-randomized
and unspecified; this model fixes insertion order, and only facts independent
of the iteration order (membership, the collection of values) are proved from
it. -/
def setAdd (st : List (List Char)) (x : List Char) : List (List Char) :=
  if x ∈ st then st else st ++ [x]

def setUpdate (st : List (List Char)) (xs : List (List Char)) : List (List Char) :=
  xs.foldl setAdd st

/-- Python `str.title()` (ASCII): a letter is uppercased when the previous
character is not a letter, lowercased otherwise. -/
def titleGo : Bool → List Char → List Char
  | _, [] => []
  | prevAlpha, c :: cs =>
    if isAlphaA c then
      (if prevAlpha then lowerC c else upperC c) :: titleGo true cs
    else c :: titleGo false cs

def titleL (l : List Char) : List Char := titleGo false l

/-- Python `str.isupper()` (ASCII): at least one cased character, and no
lowercase character. -/
def pyIsUpper (l : List Char) : Bool :=
  l.any isAlphaA && l.all (fun c => ¬ isLowerA c)

/-! ### `clean_line` -/

/-- Characters kept by `clean_line`'s filter
`re.sub(r'[^\w\s\.\-\+\&\@\#\(\)]', '', line)`. -/
def cleanLineKeep (c : Char) : Bool :=
  isWordC c ∨ pyWS c ∨ c = '.' ∨ c = '-' ∨ c = '+' ∨ c = '&' ∨ c = '@' ∨
    c = '#' ∨ c = '(' ∨ c = ')'

/-- Embeds `clean_line`: collapse whitespace, drop the disallowed characters,
strip. -/
def clean_line (line : List Char) : List Char :=
  pyStrip ((collapseWS line).filter cleanLineKeep)

/-! ### `is_section_header` -/

/-- The fixed vocabulary of known section headers. -/
def sectionHeaderWords : List (List Char) :=
  [strL "education", strL "experience", strL "skills", strL "projects",
   strL "work", strL "employment", strL "academic", strL "qualifications",
   strL "certifications", strL "languages", strL "interests",
   strL "achievements", strL "awards", strL "publications",
   strL "references", strL "contact"]

/-- Embeds `re.match(r'^[A-Z][A-Z\s]+$', s)` on an already-stripped string: an
uppercase letter followed by one or more uppercase letters or whitespace
characters, to the end of the string. -/
def upperLineMatch : List Char → Bool
  | [] => false
  | c :: cs => isUpperA c && (¬ cs = []) && cs.all (fun d => isUpperA d ∨ pyWS d)

/-- Embeds `is_section_header`. -/
def is_section_header (line : List Char) : Bool :=
  let lineClean := pyStrip line
  if lowerL lineClean ∈ sectionHeaderWords then true
  else if wordCount lineClean ≤ 4 then
    pyIsUpper lineClean || upperLineMatch lineClean
  else false

/-! ### `extract_section_simple` and `extract_section_advanced` -/

/-- The five case variants generated by `extract_section_simple` for a
section name. -/
def sectionVariations (name : List Char) : List (List Char) :=
  [upperL name, titleL name, lowerL name,
   upperL name ++ ['S'], titleL name ++ ['S']]

/-- Collection loop of `extract_section_simple` after the header was found:
lines containing a variation are skipped, a section-header line stops the
collection, non-empty (stripped) lines are collected. -/
def simpleCollect (variations : List (List Char)) : List (List Char) → List (List Char)
  | [] => []
  | line :: rest =>
    let lineClean := pyStrip line
    if variations.any (fun v => containsSub v lineClean) then
      simpleCollect variations rest
    else if is_section_header line then []
    else if ¬ lineClean = [] then lineClean :: simpleCollect variations rest
    else simpleCollect variations rest

/-- Search loop of `extract_section_simple`: scan for the first line
containing a variation, then collect. -/
def simpleFind (variations : List (List Char)) : List (List Char) → List (List Char)
  | [] => []
  | line :: rest =>
    if variations.any (fun v => containsSub v (pyStrip line)) then
      simpleCollect variations rest
    else simpleFind variations rest

/-- Embeds `extract_section_simple(lines, section_name)`. -/
def extract_section_simple (lines : List (List Char)) (name : List Char) :
    List (List Char) :=
  simpleFind (sectionVariations name) lines

/-- Collection loop of `extract_section_advanced` after a keyword line was
found: lines whose lowered, stripped form contains a keyword are skipped, a
section-header line stops collection, non-empty lines are collected
(stripped). -/
def advCollect (keywords : List (List Char)) : List (List Char) → List (List Char)
  | [] => []
  | line :: rest =>
    if keywords.any (fun k => containsSub k (lowerL (pyStrip line))) then
      advCollect keywords rest
    else if is_section_header line then []
    else if ¬ pyStrip line = [] then pyStrip line :: advCollect keywords rest
    else advCollect keywords rest

def advFind (keywords : List (List Char)) : List (List Char) → List (List Char)
  | [] => []
  | line :: rest =>
    if keywords.any (fun k => containsSub k (lowerL (pyStrip line))) then
      advCollect keywords rest
    else advFind keywords rest

/-- Embeds `extract_section_advanced(lines, section_keywords)`: find and collect,
then clean each collected line (the collected lines are already stripped and
non-empty, mirroring the final comprehension's filter on `line.strip()`). -/
def extract_section_advanced (lines : List (List Char))
    (keywords : List (List Char)) : List (List Char) :=
  ((advFind keywords lines).filter (fun l => ¬ pyStrip l = [])).map clean_line

/-! ### `clean_skill` -/

/-- Is the first character (if any) a whitespace character? -/
def headWS : List Char → Bool
  | [] => false
  | c :: _ => pyWS c

/-- Does `re.sub(r'^(and|or|&)\s+', ..., flags=IGNORECASE)` match?  True when
the string starts with a conjunction followed by at least one whitespace
character. -/
def leadConjMatch (l : List Char) : Bool :=
  let lo := lowerL l
  (strL "and").isPrefixOf lo && headWS (lo.drop 3) ||
  (strL "or").isPrefixOf lo && headWS (lo.drop 2) ||
  ['&'].isPrefixOf lo && headWS (lo.drop 1)

/-- Step 1 of `clean_skill`: remove one leading conjunction together with the
whitespace run after it (the regex is anchored at the start, so at most one
replacement happens). -/
def conjStripL (l : List Char) : List Char :=
  let lo := lowerL l
  if (strL "and").isPrefixOf lo && headWS (lo.drop 3) then
    (l.drop 3).dropWhile pyWS
  else if (strL "or").isPrefixOf lo && headWS (lo.drop 2) then
    (l.drop 2).dropWhile pyWS
  else if ['&'].isPrefixOf lo && headWS (lo.drop 1) then
    (l.drop 1).dropWhile pyWS
  else l

/-- Does `re.sub(r'\s+(and|or|&)$', ...)` match?  True when the string ends
with whitespace followed by a conjunction (checked on the reversal: the
conjunctions read backwards are `dna`, `ro`, `&`). -/
def trailConjMatch (l : List Char) : Bool :=
  let lo := lowerL l.reverse
  (strL "dna").isPrefixOf lo && headWS (lo.drop 3) ||
  (strL "ro").isPrefixOf lo && headWS (lo.drop 2) ||
  ['&'].isPrefixOf lo && headWS (lo.drop 1)

/-- Step 2 of `clean_skill`: remove one trailing conjunction together with the
whitespace run before it. -/
def conjStripR (l : List Char) : List Char :=
  let r := l.reverse
  let lo := lowerL r
  if (strL "dna").isPrefixOf lo && headWS (lo.drop 3) then
    ((r.drop 3).dropWhile pyWS).reverse
  else if (strL "ro").isPrefixOf lo && headWS (lo.drop 2) then
    ((r.drop 2).dropWhile pyWS).reverse
  else if ['&'].isPrefixOf lo && headWS (lo.drop 1) then
    ((r.drop 1).dropWhile pyWS).reverse
  else l

/-- Step 3 of `clean_skill`: `re.sub(r'\s+\d+\.?\d*', '', skill)` as a
left-to-right scan.  The first argument buffers a pending whitespace run; a
digit right after a pending run deletes the run and switches to skipping the
number (`digs`), an optional dot continues into `dot2`. -/
inductive NumSt | norm | digs | dot2

def numStripGo : NumSt → List Char → List Char → List Char
  | .norm, pend, [] => pend
  | .digs, _, [] => []
  | .dot2, _, [] => []
  | .norm, pend, c :: cs =>
    if pyWS c then numStripGo .norm (pend ++ [c]) cs
    else if isDigitC c ∧ ¬ pend = [] then numStripGo .digs [] cs
    else pend ++ c :: numStripGo .norm [] cs
  | .digs, _, c :: cs =>
    if isDigitC c then numStripGo .digs [] cs
    else if c = '.' then numStripGo .dot2 [] cs
    else if pyWS c then numStripGo .norm [c] cs
    else c :: numStripGo .norm [] cs
  | .dot2, _, c :: cs =>
    if isDigitC c then numStripGo .dot2 [] cs
    else if pyWS c then numStripGo .norm [c] cs
    else c :: numStripGo .norm [] cs

def numStrip (l : List Char) : List Char := numStripGo .norm [] l

/-- Step 4 of `clean_skill`: `re.sub(r'\s+\d{4}', '', skill)` — a whitespace
run immediately followed by at least four digits is deleted together with
exactly four of the digits.  Recursion is on a fuel bounded by the input
length so that the definition stays structural. -/
def yearStripF : Nat → List Char → List Char
  | 0, l => l
  | _ + 1, [] => []
  | n + 1, c :: cs =>
    if pyWS c then
      let ws := (c :: cs).takeWhile pyWS
      let rest := (c :: cs).dropWhile pyWS
      if 4 ≤ (rest.takeWhile isDigitC).length then yearStripF n (rest.drop 4)
      else ws ++ yearStripF n rest
    else c :: yearStripF n cs

def yearStrip (l : List Char) : List Char := yearStripF l.length l

/-- Embeds `clean_skill(skill)`. -/
def clean_skill (skill : List Char) : List Char :=
  pyStrip (collapseWS (yearStrip (numStrip (conjStripR (conjStripL skill)))))

/-! ### `extract_skill_terms`

The four patterns of `extract_skill_terms` are embedded as deterministic
scanners equivalent to `re.findall`'s leftmost, greedy-with-backtracking
semantics; fuel (bounded by the input length) keeps the scanners structural.
`\b` holds between two positions when exactly one side is a word character
(`isWordC`); the edges of the string count as non-word. -/

def isWordO : Option Char → Bool
  | some c => isWordC c
  | none => false

/-- Try pattern 1, `\b[A-Z][a-z]+(?:\s+[A-Z][a-z]+)*\b`, at the current
position (`prevWord`: was the previous character a word character).  Greedily
extends `(?:\s+[A-Z][a-z]+)` units; if the trailing `\b` fails after the
units, the last unit is dropped (its leading whitespace then witnesses the
boundary); with zero units a trailing word character makes the match fail. -/
def p1Extend : Nat → List Char → List Char → Option (List Char × List Char)
  | 0, acc, rest =>
    if isWordO rest.head? then none else some (acc, rest)
  | n + 1, acc, rest =>
    let ws := rest.takeWhile pyWS
    let r1 := rest.dropWhile pyWS
    match r1 with
    | u :: r2 =>
      if ¬ ws = [] ∧ isUpperA u ∧ ¬ r2.takeWhile isLowerA = [] then
        match p1Extend n (acc ++ ws ++ u :: r2.takeWhile isLowerA)
            (r2.dropWhile isLowerA) with
        | some res => some res
        | none => some (acc, rest)
      else if isWordO rest.head? then none else some (acc, rest)
    | [] => if isWordO rest.head? then none else some (acc, rest)

def p1Try (prevWord : Bool) (l : List Char) : Option (List Char × List Char) :=
  match l with
  | [] => none
  | c :: cs =>
    if prevWord then none
    else if isUpperA c ∧ ¬ cs.takeWhile isLowerA = [] then
      p1Extend cs.length (c :: cs.takeWhile isLowerA) (cs.dropWhile isLowerA)
    else none

/-- Try pattern 2, `\b[A-Z]{2,}\b`. -/
def p2Try (prevWord : Bool) (l : List Char) : Option (List Char × List Char) :=
  if prevWord then none
  else
    let run := l.takeWhile isUpperA
    let rest := l.dropWhile isUpperA
    if 2 ≤ run.length ∧ ¬ isWordO rest.head? then some (run, rest) else none

/-- Try pattern 3, `\b[a-z]+\.[a-z]+\b`. -/
def p3Try (prevWord : Bool) (l : List Char) : Option (List Char × List Char) :=
  if prevWord then none
  else
    let run1 := l.takeWhile isLowerA
    match l.dropWhile isLowerA with
    | '.' :: r1 =>
      let run2 := r1.takeWhile isLowerA
      let rest := r1.dropWhile isLowerA
      if ¬ run1 = [] ∧ ¬ run2 = [] ∧ ¬ isWordO rest.head? then
        some (run1 ++ '.' :: run2, rest)
      else none
    | _ => none

/-- Try pattern 4, `\b[A-Z][a-z]+\s+[A-Z][a-z]+\b`. -/
def p4Try (prevWord : Bool) (l : List Char) : Option (List Char × List Char) :=
  match l with
  | [] => none
  | c :: cs =>
    if prevWord then none
    else if isUpperA c ∧ ¬ cs.takeWhile isLowerA = [] then
      let r1 := cs.dropWhile isLowerA
      let ws := r1.takeWhile pyWS
      match r1.dropWhile pyWS with
      | u :: r2 =>
        if ¬ ws = [] ∧ isUpperA u ∧ ¬ r2.takeWhile isLowerA = [] ∧
            ¬ isWordO (r2.dropWhile isLowerA).head? then
          some (c :: cs.takeWhile isLowerA ++ ws ++ u :: r2.takeWhile isLowerA,
            r2.dropWhile isLowerA)
        else none
      | [] => none
    else none

/-- Embeds `re.findall` skeleton: scan left to right, at a match continue right
after it, otherwise advance one character. -/
def findallGo (tryAt : Bool → List Char → Option (List Char × List Char)) :
    Nat → Bool → List Char → List (List Char)
  | 0, _, _ => []
  | n + 1, prevWord, l =>
    match tryAt prevWord l with
    | some (m, rest) => m :: findallGo tryAt n true rest
    | none =>
      match l with
      | [] => []
      | c :: cs => findallGo tryAt n (isWordC c) cs

def findall (tryAt : Bool → List Char → Option (List Char × List Char))
    (l : List Char) : List (List Char) :=
  findallGo tryAt (l.length + 1) false l

/-- Embeds `extract_skill_terms(text)`: all matches of the four patterns,
concatenated. -/
def extract_skill_terms (text : List Char) : List (List Char) :=
  findall p1Try text ++ findall p2Try text ++ findall p3Try text ++
    findall p4Try text

/-! ### `extract_skills_advanced` -/

/-- The separator list of `extract_skills_advanced`. -/
def advSeparators : List Char := [',', ';', '|', '•', '·', '▪', '▫', '◦', '‣', '⁃']

/-- Python's `for sep in separators: if sep in line: ... break` — the first
separator occurring in the line, if any. -/
def firstSepIn (seps : List Char) (l : List Char) : Option Char :=
  seps.find? (fun sep => l.contains sep)

/-- One loop iteration of `extract_skills_advanced`: strip a category label
(text after the first colon), then split on the first separator found, or
treat a short line as a single skill, or fall back to the pattern
extractor. -/
def advSkillLine (st : List (List Char)) (line : List Char) : List (List Char) :=
  let line := if line.contains ':' then afterFirstC ':' line else line
  match firstSepIn advSeparators line with
  | some sep =>
    setUpdate st (((splitOnC sep line).map pyStrip).filter (fun p => ¬ p = []))
  | none =>
    if wordCount line ≤ 3 then setAdd st (pyStrip line)
    else setUpdate st (extract_skill_terms line)

/-- Embeds `extract_skills_advanced(skill_lines)`. -/
def extract_skills_advanced (skill_lines : List (List Char)) : List (List Char) :=
  let sk := skill_lines.foldl advSkillLine []
  let cleaned := sk.foldl
    (fun acc s =>
      let c := clean_skill s
      if ¬ c = [] ∧ 1 < c.length then acc ++ [c] else acc) []
  dedupKeepFirst cleaned

/-! ### Single-line section patterns

Each single-line pattern has the form `KEYWORD\s+(.*?)(?=B1|B2|...|$)` with
`re.IGNORECASE | re.DOTALL`.  `re.search` finds the leftmost occurrence of
the keyword followed by at least one whitespace character; the greedy `\s+`
then consumes the whole whitespace run, and the lazy group stops at the first
position where one of the boundary keywords matches (case-insensitively) or
at `$` (end of string, or just before a final newline). -/

/-- Suffix of the text right after the leftmost occurrence of `kw` that is
followed by at least one whitespace character; `none` when there is no such
occurrence. -/
def findKwWs (kw : List Char) : List Char → Option (List Char)
  | [] => if kw = [] then none else none
  | c :: cs =>
    if isPrefixCI kw (c :: cs) ∧ headWS ((c :: cs).drop kw.length) then
      some ((c :: cs).drop kw.length)
    else findKwWs kw cs

/-- The lazy group: collect characters until a boundary keyword matches
(case-insensitively), the string ends, or only a final newline remains
(`$` without `re.MULTILINE`). -/
def captureUntil (bounds : List (List Char)) : List Char → List Char
  | [] => []
  | c :: cs =>
    if bounds.any (fun b => isPrefixCI b (c :: cs)) then []
    else if c = '\n' ∧ cs = [] then []
    else c :: captureUntil bounds cs

/-- Embeds `re.search(KEYWORD\s+(.*?)(?=bounds|$), text)`: the captured group, or
`none` when the pattern does not match. -/
def sectionCapture (kw : List Char) (bounds : List (List Char))
    (text : List Char) : Option (List Char) :=
  match findKwWs kw text with
  | none => none
  | some rest => some (captureUntil bounds (rest.dropWhile pyWS))

/-! ### Single-line per-section extractors -/

/-- Embeds `extract_bullet_points(text)`: split on `•`, keep stripped fragments
longer than 5 characters. -/
def extract_bullet_points (text : List Char) : List (List Char) :=
  (splitOnC '•' text).foldr
    (fun sec acc =>
      let s := pyStrip sec
      if ¬ s = [] ∧ 5 < s.length then s :: acc else acc) []

/-- Embeds `extract_skill_items(text)`. -/
def extract_skill_items (text : List Char) : List (List Char) :=
  let raw :=
    match firstSepIn [',', ';', '|', '&'] text with
    | some sep => ((splitOnC sep text).map pyStrip).filter (fun p => ¬ p = [])
    | none =>
      if wordCount text ≤ 5 then [pyStrip text]
      else extract_skill_terms text
  (raw.map clean_skill).filter (fun c => ¬ c = [])

/-- Embeds `extract_skills_from_text(skills_text)`. -/
def extract_skills_from_text (skills_text : List Char) : List (List Char) :=
  let sk := (splitOnC '•' skills_text).foldr
    (fun sec acc =>
      let s := pyStrip sec
      if s = [] then acc
      else if s.contains ':' then extract_skill_items (afterFirstC ':' s) ++ acc
      else extract_skill_items s ++ acc) []
  dedupKeepFirst sk

/-- Class of `[A-Za-z\s]` used by the project-name patterns. -/
def projClass (c : Char) : Bool := isAlphaA c ∨ pyWS c

/-- Try `([A-Z][A-Za-z\s]+)\s*§` at the current position: the maximal class
run from an uppercase letter, immediately followed by `§` (the `\s*` is
absorbed by the greedy class run).  The capture is the class run. -/
def projParTry (_ : Bool) (l : List Char) : Option (List Char × List Char) :=
  match l with
  | [] => none
  | c :: cs =>
    if isUpperA c ∧ ¬ cs.takeWhile projClass = [] then
      match cs.dropWhile projClass with
      | '§' :: rest => some (c :: cs.takeWhile projClass, rest)
      | _ => none
    else none

/-- Try `([A-Z][A-Za-z\s]+)\s*Tools:` at the current position: the maximal
class run must end with `Tools`, be followed by `:`, and leave a capture of
at least two characters. -/
def projToolsTry (_ : Bool) (l : List Char) : Option (List Char × List Char) :=
  match l with
  | [] => none
  | c :: cs =>
    if isUpperA c ∧ ¬ cs.takeWhile projClass = [] then
      let run := c :: cs.takeWhile projClass
      match cs.dropWhile projClass with
      | ':' :: rest =>
        if (strL "Tools").isSuffixOf run ∧ 7 ≤ run.length then
          some (run.take (run.length - 5), rest)
        else none
      | _ => none
    else none

/-! ### `extract_contact_info`

The three searches (`re.search`: leftmost match) are embedded as
deterministic scanners derived from the greedy-with-backtracking semantics of
each pattern. -/

/-- Character classes of the e-mail pattern
`\b[A-Za-z0-9._%+-]+@[A-Za-z0-9.-]+\.[A-Z|a-z]{2,}\b`. -/
def emailLocalC (c : Char) : Bool :=
  isAlnumA c ∨ c = '.' ∨ c = '_' ∨ c = '%' ∨ c = '+' ∨ c = '-'

def emailDomC (c : Char) : Bool := isAlnumA c ∨ c = '.' ∨ c = '-'

/-- Embeds `[A-Z|a-z]` — note the literal `|` inside the class. -/
def emailTldC (c : Char) : Bool := isAlphaA c ∨ c = '|'

/-- First success of `f` over a list, in order. -/
def firstSome {α β : Type} (f : α → Option β) : List α → Option β
  | [] => none
  | x :: xs =>
    match f x with
    | some y => some y
    | none => firstSome f xs

/-- Backtrack `[A-Z|a-z]{2,}` from its greedy maximum down to 2 characters
until the trailing `\b` holds. -/
def tldTake : Nat → List Char → Option (List Char)
  | 0, _ => none
  | 1, _ => none
  | k + 2, tl =>
    let t := tl.take (k + 2)
    if isWordO t.getLast? != isWordO ((tl.drop (k + 2)).head?) then some t
    else tldTake (k + 1) tl

/-- Match the domain part `[A-Za-z0-9.-]+\.[A-Z|a-z]{2,}\b` at the start of
`l`: the greedy domain run backtracks to each `.` from right to left (a
positive number of domain characters must precede the dot). -/
def emailDomain (l : List Char) : Option (List Char) :=
  let d := l.takeWhile emailDomC
  let dots := ((List.range d.length).filter
    (fun i => 1 ≤ i ∧ d.get? i = some '.')).reverse
  firstSome (fun i =>
    let suffix := l.drop (i + 1)
    let t := suffix.takeWhile emailTldC
    match tldTake t.length suffix with
    | some tld => some (d.take i ++ '.' :: tld)
    | none => none) dots

/-- Try the e-mail pattern at the current position. -/
def emailTry (prev : Option Char) (l : List Char) : Option (List Char) :=
  match l.head? with
  | none => none
  | some c0 =>
    if ¬ emailLocalC c0 then none
    else if isWordO prev == isWordC c0 then none
    else
      let localRun := l.takeWhile emailLocalC
      match l.dropWhile emailLocalC with
      | '@' :: r =>
        match emailDomain r with
        | some dom => some (localRun ++ '@' :: dom)
        | none => none
      | _ => none

/-- Embeds `re.search` skeleton: scan positions left to right, remembering the
previous character, and return the first match. -/
def searchGo (tryAt : Option Char → List Char → Option (List Char)) :
    Option Char → List Char → Option (List Char)
  | prev, l =>
    match tryAt prev l with
    | some m => some m
    | none =>
      match l with
      | [] => none
      | c :: cs => searchGo tryAt (some c) cs

/-- Separator class `[-.\s]` of the phone patterns. -/
def phoneSepC (c : Char) : Bool := c = '-' ∨ c = '.' ∨ pyWS c

/-- Take exactly `k` digits. -/
def takeDigits : Nat → List Char → Option (List Char × List Char)
  | 0, l => some ([], l)
  | _ + 1, [] => none
  | k + 1, c :: cs =>
    if isDigitC c then
      match takeDigits k cs with
      | some (m, r) => some (c :: m, r)
      | none => none
    else none

/-- Greedy `\d{m,n}`-style choice: try the digit counts from `hi` down to
`lo`, passing the remainder to the continuation; first success wins. -/
def digitsBetween (lo hi : Nat) (l : List Char)
    (cont : List Char → List Char → Option (List Char)) : Option (List Char) :=
  go (hi + 1 - lo)
where
  go : Nat → Option (List Char)
    | 0 => none
    | j + 1 =>
      let k := lo + j
      match takeDigits k l with
      | some (m, r) =>
        match cont m r with
        | some res => some res
        | none => go j
      | none => go j

/-- Greedy `[-.\s]?`: try consuming a separator first, then not. -/
def sepOpt (l : List Char) (cont : List Char → List Char → Option (List Char)) :
    Option (List Char) :=
  match l with
  | c :: cs =>
    if phoneSepC c then
      match cont [c] cs with
      | some res => some res
      | none => cont [] l
    else cont [] l
  | [] => cont [] l

/-- Try the US phone pattern `\b\d{3}[-.\s]?\d{3}[-.\s]?\d{4}\b` at the
current position. -/
def phoneUsTry (prev : Option Char) (l : List Char) : Option (List Char) :=
  if isWordO prev then none
  else
    digitsBetween 3 3 l (fun m1 r1 =>
      sepOpt r1 (fun s1 r2 =>
        digitsBetween 3 3 r2 (fun m2 r3 =>
          sepOpt r3 (fun s2 r4 =>
            digitsBetween 4 4 r4 (fun m3 r5 =>
              if isWordO r5.head? then none
              else some (m1 ++ s1 ++ m2 ++ s2 ++ m3))))))

/-- Try the international phone pattern
`\+\d{1,3}[-.\s]?\d{1,4}[-.\s]?\d{1,4}[-.\s]?\d{1,4}\b` at the current
position (no leading `\b`). -/
def phoneIntlTry (_ : Option Char) (l : List Char) : Option (List Char) :=
  match l with
  | '+' :: r0 =>
    (digitsBetween 1 3 r0 (fun m1 r1 =>
      sepOpt r1 (fun s1 r2 =>
        digitsBetween 1 4 r2 (fun m2 r3 =>
          sepOpt r3 (fun s2 r4 =>
            digitsBetween 1 4 r4 (fun m3 r5 =>
              sepOpt r5 (fun s3 r6 =>
                digitsBetween 1 4 r6 (fun m4 r7 =>
                  if isWordO r7.head? then none
                  else some (m1 ++ s1 ++ m2 ++ s2 ++ m3 ++ s3 ++ m4))))))))).map
      (fun tail => '+' :: tail)
  | _ => none

/-- Try the LinkedIn pattern `linkedin\.com/in/[A-Za-z0-9-]+` (case
sensitive) at the current position. -/
def linkedinTry (_ : Option Char) (l : List Char) : Option (List Char) :=
  let lit := strL "linkedin.com/in/"
  if lit.isPrefixOf l then
    let r := l.drop lit.length
    let run := r.takeWhile (fun c => isAlnumA c ∨ c = '-')
    if ¬ run = [] then some (lit ++ run) else none
  else none

/-- The `contact` mapping: optional `email`, `phone`, `linkedin` keys. -/
structure Contact where
  email : Option (List Char)
  phone : Option (List Char)
  linkedin : Option (List Char)
deriving DecidableEq

/-- Embeds `extract_contact_info(text)`: first e-mail match, first phone match of
the first phone pattern that matches anywhere (US format before
international), first LinkedIn match. -/
def extract_contact_info (text : List Char) : Contact :=
  { email := searchGo emailTry none text
    phone :=
      match searchGo phoneUsTry none text with
      | some m => some m
      | none => searchGo phoneIntlTry none text
    linkedin := searchGo linkedinTry none text }

/-- Python `bool(contact_info)`: the mapping is non-empty. -/
def Contact.found (c : Contact) : Bool :=
  c.email.isSome || c.phone.isSome || c.linkedin.isSome

/-- Embeds `extract_projects_from_text(projects_text)`. -/
def extract_projects_from_text (projects_text : List Char) : List (List Char) :=
  let patNames :=
    (findall projParTry projects_text ++ findall projToolsTry projects_text).foldr
      (fun m acc =>
        let name := pyStrip m
        if 3 < name.length then name :: acc else acc) []
  let projects :=
    if patNames = [] then
      (splitOnC '•' projects_text).foldr
        (fun sec acc =>
          let s := pyStrip sec
          if ¬ s = [] ∧ 10 < s.length then s :: acc else acc) []
    else patNames
  dedupKeepFirst projects

/-! ### The output record -/

/-- The `metadata` dictionary: multi-line mode sets `total_lines`,
single-line mode sets `total_characters`. -/
structure Metadata where
  total_lines : Option Nat
  total_characters : Option Nat
  sections_found : List (List Char)
  contact_info_found : Bool
deriving DecidableEq

/-- The `ParsedResume` record.  In multi-line mode the Python dictionary has
no `certifications`/`achievements`/`extracurricular` keys; those fields are
`[]` there. -/
structure ParsedResume where
  contact : Contact
  education : List (List Char)
  experience : List (List Char)
  projects : List (List Char)
  skills : List (List Char)
  certifications : List (List Char)
  achievements : List (List Char)
  extracurricular : List (List Char)
  raw_text : List Char
  metadata : Metadata
deriving DecidableEq

/-- The `sections_found` comprehension
`[k for k, v in parsed_data.items() if v and k not in [...]]` over the
section keys and their values, in dictionary insertion order: a key appears
exactly when its section is non-empty. -/
def sectionsFoundOf (ps : List (List Char × List (List Char))) : List (List Char) :=
  ps.foldr (fun kv acc => if ¬ kv.2 = [] then kv.1 :: acc else acc) []

/-- Embeds `parse_resume_single_line(raw_text)`.  The six patterns are unrolled;
each boundary list is exactly the lookahead alternation of the corresponding
pattern in the source (note that the `education` and `skills` lookaheads do
not include `EXTRACURRICULAR`). -/
def parse_resume_single_line (raw_text : List Char) : ParsedResume :=
  let contact := extract_contact_info raw_text
  let education :=
    match sectionCapture (strL "EDUCATION")
        [strL "SKILLS", strL "PROJECTS", strL "CERTIFICATIONS", strL "ACHIEVEMENTS"]
        raw_text with
    | some c => extract_bullet_points (pyStrip c)
    | none => []
  let skills :=
    match sectionCapture (strL "SKILLS")
        [strL "PROJECTS", strL "CERTIFICATIONS", strL "ACHIEVEMENTS"] raw_text with
    | some c => extract_skills_from_text (pyStrip c)
    | none => []
  let projects :=
    match sectionCapture (strL "PROJECTS")
        [strL "CERTIFICATIONS", strL "ACHIEVEMENTS", strL "EXTRACURRICULAR"]
        raw_text with
    | some c => extract_projects_from_text (pyStrip c)
    | none => []
  let certifications :=
    match sectionCapture (strL "CERTIFICATIONS")
        [strL "ACHIEVEMENTS", strL "EXTRACURRICULAR"] raw_text with
    | some c => extract_bullet_points (pyStrip c)
    | none => []
  let achievements :=
    match sectionCapture (strL "ACHIEVEMENTS") [strL "EXTRACURRICULAR"] raw_text with
    | some c => extract_bullet_points (pyStrip c)
    | none => []
  let extracurricular :=
    match sectionCapture (strL "EXTRACURRICULAR") [] raw_text with
    | some c => extract_bullet_points (pyStrip c)
    | none => []
  { contact := contact
    education := education
    experience := []
    projects := projects
    skills := skills
    certifications := certifications
    achievements := achievements
    extracurricular := extracurricular
    raw_text := raw_text
    metadata :=
      { total_lines := none
        total_characters := some raw_text.length
        sections_found :=
          sectionsFoundOf
            [(strL "education", education), (strL "experience", []),
             (strL "projects", projects), (strL "skills", skills),
             (strL "certifications", certifications),
             (strL "achievements", achievements),
             (strL "extracurricular", extracurricular)]
        contact_info_found := contact.found } }

/-- The advanced-strategy keyword lists of `parse_resume_enhanced`. -/
def eduKeywords : List (List Char) :=
  [strL "education", strL "academic", strL "qualifications", strL "degree",
   strL "university", strL "college"]

def expKeywords : List (List Char) :=
  [strL "experience", strL "work", strL "employment", strL "career",
   strL "professional"]

def projKeywords : List (List Char) :=
  [strL "projects", strL "project", strL "portfolio", strL "works",
   strL "achievements"]

def skillKeywords : List (List Char) :=
  [strL "skills", strL "technical skills", strL "technologies",
   strL "programming", strL "languages", strL "tools"]

/-- The multi-line branch of `parse_resume_enhanced`. -/
def parse_resume_multi_line (raw_text : List Char) : ParsedResume :=
  let lines := ((splitOnC '\n' raw_text).map pyStrip).filter (fun l => ¬ l = [])
  let contact := extract_contact_info raw_text
  let eduS := extract_section_simple lines (strL "EDUCATION")
  let expS := extract_section_simple lines (strL "EXPERIENCE")
  let projS := extract_section_simple lines (strL "PROJECTS")
  let skillS := extract_section_simple lines (strL "SKILLS")
  let education := if eduS = [] then extract_section_advanced lines eduKeywords else eduS
  let experience := if expS = [] then extract_section_advanced lines expKeywords else expS
  let projects := if projS = [] then extract_section_advanced lines projKeywords else projS
  let skills_section :=
    if skillS = [] then extract_section_advanced lines skillKeywords else skillS
  let skills := extract_skills_advanced skills_section
  { contact := contact
    education := education
    experience := experience
    projects := projects
    skills := skills
    certifications := []
    achievements := []
    extracurricular := []
    raw_text := raw_text
    metadata :=
      { total_lines := some lines.length
        total_characters := none
        sections_found :=
          sectionsFoundOf
            [(strL "education", education), (strL "experience", experience),
             (strL "projects", projects), (strL "skills", skills)]
        contact_info_found := contact.found } }

/-- Embeds `parse_resume_enhanced(raw_text)`: single-line mode when splitting on
newline characters yields at most 3 pieces (empty pieces included), otherwise
multi-line mode. -/
def parse_resume_enhanced (raw_text : List Char) : ParsedResume :=
  if (splitOnC '\n' raw_text).length ≤ 3 then parse_resume_single_line raw_text
  else parse_resume_multi_line raw_text

/-- Embeds `parse_resume(raw_text)` (alias for backward compatibility). -/
def parse_resume (raw_text : List Char) : ParsedResume :=
  parse_resume_enhanced raw_text

/-! ### `analyze_resume_quality` -/

structure QualityAnalysis where
  completeness_score : Nat
  missing_sections : List (List Char)
  recommendations : List (List Char)
  strengths : List (List Char)
deriving DecidableEq

def recMissingSections : List Char :=
  strL "Consider adding missing sections to improve resume completeness"

def recMoreSkills : List Char :=
  strL "Add more technical skills to showcase your capabilities"

def recMoreProjects : List Char :=
  strL "Include more projects to demonstrate practical experience"

/-- Embeds `analyze_resume_quality(parsed_data)`.  Python computes the score as the
float `(found_sections / 4) * 100`, always an exact multiple of 25; it is
modelled as the equal natural number `found_sections * 100 / 4`. -/
def analyze_resume_quality (p : ParsedResume) : QualityAnalysis :=
  let found :=
    (if ¬ p.education = [] then 1 else 0) + (if ¬ p.experience = [] then 1 else 0) +
    (if ¬ p.projects = [] then 1 else 0) + (if ¬ p.skills = [] then 1 else 0)
  let score := found * 100 / 4
  { completeness_score := score
    missing_sections :=
      (if p.education = [] then [strL "Education"] else []) ++
      (if p.experience = [] then [strL "Experience"] else []) ++
      (if p.projects = [] then [strL "Projects"] else []) ++
      (if p.skills = [] then [strL "Skills"] else [])
    recommendations :=
      (if score < 75 then [recMissingSections] else []) ++
      (if p.skills.length < 5 then [recMoreSkills] else []) ++
      (if p.projects.length < 2 then [recMoreProjects] else [])
    strengths :=
      (if ¬ p.education = [] then [strL "Education information found"] else []) ++
      (if ¬ p.experience = [] then [strL "Work experience found"] else []) ++
      (if ¬ p.projects = [] then [strL "Project portfolio found"] else []) ++
      (if ¬ p.skills = [] then
        [strL "Skills found (" ++ strL (toString p.skills.length) ++ strL " skills)"]
       else []) }

end ResumeParser



namespace ResumeParser

/-! ### Adjacency predicates used to reason about `clean_skill` -/

/-- No adjacent pair of characters satisfies `bad`. -/
def chainOk (bad : Char → Char → Bool) : List Char → Bool
  | a :: b :: rest => !bad a b && chainOk bad (b :: rest)
  | _ => true

/-- No whitespace character immediately followed by a digit (so
`\s+\d...`-style patterns cannot match). -/
def noWsDig (l : List Char) : Bool :=
  chainOk (fun a b => pyWS a && isDigitC b) l

/-- No two adjacent whitespace characters. -/
def noDoubleWS (l : List Char) : Bool :=
  chainOk (fun a b => pyWS a && pyWS b) l

/-- Every whitespace character is a plain space. -/
def allWsSpace (l : List Char) : Bool :=
  l.all (fun c => !pyWS c || c = ' ')

end ResumeParser

/-! ## Helper lemmas -/

namespace ResumeParser

theorem pyStrip_idem (l : List Char) : pyStrip (pyStrip l) = pyStrip l := by
  unfold pyStrip
  have hpre : List.rdropWhile pyWS (List.dropWhile pyWS l) <+:
      List.dropWhile pyWS l := List.rdropWhile_prefix _ _
  cases hB : List.rdropWhile pyWS (List.dropWhile pyWS l) with
  | nil => simp [List.rdropWhile]
  | cons b bs =>
    rw [hB] at hpre
    obtain ⟨t, ht⟩ := hpre
    have hne : List.dropWhile pyWS l ≠ [] := by
      rw [← ht]; simp
    have hb : pyWS b = false := by
      have h2 := List.head?_dropWhile_not pyWS l
      rw [← ht] at h2
      simpa using h2
    have hdw : List.dropWhile pyWS (b :: bs) = b :: bs := by
      rw [List.dropWhile_cons_of_neg]
      simp [hb]
    rw [hdw, ← hB, List.rdropWhile_idempotent]

theorem mem_dedupKeepFirstGo {x : List Char} :
    ∀ {l seen}, x ∈ dedupKeepFirstGo seen l → x ∈ l := by
  intro l
  induction l with
  | nil => intro seen h; simp [dedupKeepFirstGo] at h
  | cons y ys ih =>
    intro seen h
    unfold dedupKeepFirstGo at h
    by_cases hy : y ∈ seen
    · simp only [if_pos hy] at h
      exact List.mem_cons_of_mem _ (ih h)
    · simp only [if_neg hy] at h
      rcases List.mem_cons.mp h with h | h
      · exact h ▸ List.mem_cons_self _ _
      · exact List.mem_cons_of_mem _ (ih h)

theorem not_seen_dedupKeepFirstGo {x : List Char} :
    ∀ {l seen}, x ∈ dedupKeepFirstGo seen l → x ∉ seen := by
  intro l
  induction l with
  | nil => intro seen h; simp [dedupKeepFirstGo] at h
  | cons y ys ih =>
    intro seen h
    unfold dedupKeepFirstGo at h
    by_cases hy : y ∈ seen
    · simp only [if_pos hy] at h
      exact ih h
    · simp only [if_neg hy] at h
      rcases List.mem_cons.mp h with h | h
      · exact h ▸ hy
      · intro hx
        exact ih h (List.mem_cons_of_mem _ hx)

theorem dedupKeepFirstGo_nodup : ∀ (l seen : _), (dedupKeepFirstGo seen l).Nodup := by
  intro l
  induction l with
  | nil => intro seen; simp [dedupKeepFirstGo]
  | cons y ys ih =>
    intro seen
    unfold dedupKeepFirstGo
    by_cases hy : y ∈ seen
    · simp only [if_pos hy]; exact ih seen
    · simp only [if_neg hy]
      refine List.nodup_cons.mpr ⟨?_, ih (y :: seen)⟩
      intro hmem
      exact not_seen_dedupKeepFirstGo hmem (List.mem_cons_self _ _)

theorem dedupKeepFirst_nodup (l : List (List Char)) : (dedupKeepFirst l).Nodup :=
  dedupKeepFirstGo_nodup l []

theorem mem_dedupKeepFirst {x : List Char} {l : List (List Char)}
    (h : x ∈ dedupKeepFirst l) : x ∈ l :=
  mem_dedupKeepFirstGo h

theorem sectionsFoundOf_eq_filter_map (ps : List (List Char × List (List Char))) :
    sectionsFoundOf ps = (ps.filter fun kv => ¬ kv.2 = []).map Prod.fst := by
  induction ps with
  | nil => rfl
  | cons kv rest ih =>
    unfold sectionsFoundOf at ih ⊢
    simp only [List.foldr_cons, List.filter_cons]
    by_cases h : kv.2 = []
    · simp [h]
      simpa using ih
    · simp [h]
      simpa using ih

/-- Definitional shape of the single-line result's `sections_found`. -/
theorem single_sections_found (raw : List Char) :
    (parse_resume_single_line raw).metadata.sections_found =
      sectionsFoundOf
        [(strL "education", (parse_resume_single_line raw).education),
         (strL "experience", []),
         (strL "projects", (parse_resume_single_line raw).projects),
         (strL "skills", (parse_resume_single_line raw).skills),
         (strL "certifications", (parse_resume_single_line raw).certifications),
         (strL "achievements", (parse_resume_single_line raw).achievements),
         (strL "extracurricular", (parse_resume_single_line raw).extracurricular)] :=
  rfl

/-- Definitional shape of the multi-line result's `sections_found`. -/
theorem multi_sections_found (raw : List Char) :
    (parse_resume_multi_line raw).metadata.sections_found =
      sectionsFoundOf
        [(strL "education", (parse_resume_multi_line raw).education),
         (strL "experience", (parse_resume_multi_line raw).experience),
         (strL "projects", (parse_resume_multi_line raw).projects),
         (strL "skills", (parse_resume_multi_line raw).skills)] :=
  rfl

theorem parse_resume_single_of_le (raw : List Char)
    (h : (splitOnC '\n' raw).length ≤ 3) :
    parse_resume raw = parse_resume_single_line raw := by
  simp [parse_resume, parse_resume_enhanced, h]

theorem parse_resume_multi_of_gt (raw : List Char)
    (h : ¬ (splitOnC '\n' raw).length ≤ 3) :
    parse_resume raw = parse_resume_multi_line raw := by
  simp [parse_resume, parse_resume_enhanced, h]

end ResumeParser

namespace ResumeParser

/-- Definitional shape of the single-line result's `skills`. -/
theorem single_skills (raw : List Char) :
    (parse_resume_single_line raw).skills =
      match sectionCapture (strL "SKILLS")
          [strL "PROJECTS", strL "CERTIFICATIONS", strL "ACHIEVEMENTS"] raw with
      | some c => extract_skills_from_text (pyStrip c)
      | none => [] :=
  rfl

/-- Definitional shape of the multi-line result's `skills`. -/
theorem multi_skills_shape (raw : List Char) :
    ∃ sec, (parse_resume_multi_line raw).skills = extract_skills_advanced sec :=
  ⟨_, rfl⟩

theorem extract_skills_from_text_eq_dedup (t : List Char) :
    ∃ l, extract_skills_from_text t = dedupKeepFirst l :=
  ⟨_, rfl⟩

theorem extract_skills_advanced_eq_dedup (sec : List (List Char)) :
    ∃ l, extract_skills_advanced sec = dedupKeepFirst l :=
  ⟨_, rfl⟩

end ResumeParser

/-! ## Claim theorems -/

namespace ResumeParser

/-- C1: `parse_resume` is total by construction (it is a plain Lean function
on arbitrary strings, with no error outcome in its type, mirroring the
Python code which performs no raising operation); on the empty string it
returns the degenerate record: every section sequence empty, empty contact
mapping, and `metadata.sections_found = []`. -/
theorem c1_parse_resume_empty :
    (parse_resume (strL "")).education = [] ∧
    (parse_resume (strL "")).experience = [] ∧
    (parse_resume (strL "")).projects = [] ∧
    (parse_resume (strL "")).skills = [] ∧
    (parse_resume (strL "")).certifications = [] ∧
    (parse_resume (strL "")).achievements = [] ∧
    (parse_resume (strL "")).extracurricular = [] ∧
    (parse_resume (strL "")).contact = ⟨none, none, none⟩ ∧
    (parse_resume (strL "")).metadata.sections_found = [] ∧
    (parse_resume (strL "")).metadata.contact_info_found = false := by
  decide

/-- C2 (supporting theorem): in both modes the final skills list is
deduplicated, so it never contains two equal strings.  (The other half of
the claim — first-occurrence order — is the part broken by the hash-ordered
`set` in `extract_skills_advanced`; see RESULTS.) -/
theorem c2_skills_no_duplicates (raw : List Char) :
    (parse_resume raw).skills.Nodup := by
  by_cases h : (splitOnC '\n' raw).length ≤ 3
  · rw [parse_resume_single_of_le raw h, single_skills]
    cases sectionCapture (strL "SKILLS")
        [strL "PROJECTS", strL "CERTIFICATIONS", strL "ACHIEVEMENTS"] raw with
    | none => simp
    | some c =>
      obtain ⟨l, hl⟩ := extract_skills_from_text_eq_dedup (pyStrip c)
      simpa [hl] using dedupKeepFirst_nodup l
  · rw [parse_resume_multi_of_gt raw h]
    obtain ⟨sec, hsec⟩ := multi_skills_shape raw
    obtain ⟨l, hl⟩ := extract_skills_advanced_eq_dedup sec
    rw [hsec, hl]
    exact dedupKeepFirst_nodup l

/-- C3 counterexample: the input `"A\n\n\nB"` has only 2 non-empty lines
(≤ 3), so by the claim it would be parsed in single-line mode; the code
splits on newline without discarding empty lines, obtains 4 pieces, and goes
to multi-line mode (observable: `total_lines` is set and `total_characters`
is not). -/
theorem c3_counterexample :
    ((((splitOnC '\n' (strL "A\n\n\nB")).map pyStrip).filter
        (fun l => ¬ l = [])).length ≤ 3) ∧
    (parse_resume (strL "A\n\n\nB")).metadata.total_characters = none ∧
    (parse_resume (strL "A\n\n\nB")).metadata.total_lines = some 2 := by
  decide

/-- C3 amended: single-line mode is selected exactly when splitting the raw
input on newline characters yields at most 3 pieces, counting empty pieces
(so blank lines count); `"A\nB\nC"` (3 pieces) is single-line, and any input
with 4 or more non-empty lines has 4 or more pieces, hence multi-line. -/
theorem c3_mode_selection (raw : List Char) :
    ((parse_resume raw).metadata.total_characters ≠ none ↔
      (splitOnC '\n' raw).length ≤ 3) ∧
    ((parse_resume raw).metadata.total_lines ≠ none ↔
      ¬ (splitOnC '\n' raw).length ≤ 3) := by
  by_cases h : (splitOnC '\n' raw).length ≤ 3
  · rw [parse_resume_single_of_le raw h]
    constructor
    · simp only [show (parse_resume_single_line raw).metadata.total_characters =
        some raw.length from rfl]
      simp [h]
    · simp only [show (parse_resume_single_line raw).metadata.total_lines =
        (none : Option Nat) from rfl]
      simp [h]
  · rw [parse_resume_multi_of_gt raw h]
    constructor
    · simp only [show (parse_resume_multi_line raw).metadata.total_characters =
        (none : Option Nat) from rfl]
      simp [h]
    · simp only [show (parse_resume_multi_line raw).metadata.total_lines =
        some (((splitOnC '\n' raw).map pyStrip).filter (fun l => ¬ l = [])).length
        from rfl]
      simp [h]

/-- C4 counterexample: in single-line mode, the claim's boundary chain would
stop the SKILLS content at the next chain keyword EXTRACURRICULAR, giving
skills `["Python"]`; the code's SKILLS lookahead is only
`PROJECTS|CERTIFICATIONS|ACHIEVEMENTS|$` (no EXTRACURRICULAR), so the content
runs to the end of the string and the single extracted skill still contains
the EXTRACURRICULAR header and its text. -/
theorem c4_counterexample :
    (parse_resume (strL "SKILLS Python EXTRACURRICULAR Chess")).skills =
      [strL "Python EXTRACURRICULAR Chess"] ∧
    ¬ (parse_resume (strL "SKILLS Python EXTRACURRICULAR Chess")).skills =
      [strL "Python"] := by
  decide

/-- C6 counterexample: in multi-line mode the advanced education strategy
collects the line `"!!!"` (non-empty, not a header) and then cleans it with
`clean_line`, which deletes every character, leaving an empty string in the
education sequence — not non-empty after trimming. -/
theorem c6_counterexample :
    (parse_resume (strL "academic\n!!!\nfiller\nfiller2")).education =
      [[], strL "filler", strL "filler2"] ∧
    [] ∈ (parse_resume (strL "academic\n!!!\nfiller\nfiller2")).education := by
  decide

/-- C8 counterexample: in single-line mode `extract_skill_items` keeps any
cleaned skill that is merely non-empty (`if clean_skill(skill)`), so the
input `"SKILLS X"` produces the one-character skill `"X"`, violating the
claimed minimum length of 2. -/
theorem c8_counterexample :
    (parse_resume (strL "SKILLS X")).skills = [strL "X"] ∧
    (strL "X").length = 1 := by
  decide

end ResumeParser

namespace ResumeParser

/-- C10: whenever the input is classified single-line (at most 3 newline
pieces), the experience sequence is empty — the single-line pattern table has
no experience pattern — and `"experience"` never appears in
`metadata.sections_found`. -/
theorem c10_single_line_no_experience (raw : List Char)
    (h : (splitOnC '\n' raw).length ≤ 3) :
    (parse_resume raw).experience = [] ∧
    ¬ strL "experience" ∈ (parse_resume raw).metadata.sections_found := by
  rw [parse_resume_single_of_le raw h]
  refine ⟨rfl, ?_⟩
  rw [single_sections_found, sectionsFoundOf_eq_filter_map]
  intro hmem
  obtain ⟨kv, hkv, hfst⟩ := List.mem_map.mp hmem
  have hmemf := List.mem_filter.mp hkv
  rcases hmemf with ⟨hin, hne⟩
  simp only [List.mem_cons, List.not_mem_nil, or_false] at hin
  rcases hin with h1 | h1 | h1 | h1 | h1 | h1 | h1
  · subst h1
    exact absurd (show strL "education" = strL "experience" from hfst) (by decide)
  · subst h1; simp at hne
  · subst h1
    exact absurd (show strL "projects" = strL "experience" from hfst) (by decide)
  · subst h1
    exact absurd (show strL "skills" = strL "experience" from hfst) (by decide)
  · subst h1
    exact absurd (show strL "certifications" = strL "experience" from hfst) (by decide)
  · subst h1
    exact absurd (show strL "achievements" = strL "experience" from hfst) (by decide)
  · subst h1
    exact absurd (show strL "extracurricular" = strL "experience" from hfst) (by decide)

/-- Witness for C10 at the concrete single-line input `"SKILLS X"`. -/
theorem c10_witness :
    (splitOnC '\n' (strL "SKILLS X")).length ≤ 3 ∧
    ((parse_resume (strL "SKILLS X")).experience = [] ∧
      ¬ strL "experience" ∈ (parse_resume (strL "SKILLS X")).metadata.sections_found) :=
  ⟨by decide, c10_single_line_no_experience (strL "SKILLS X") (by decide)⟩

/-- C5: `metadata.sections_found` is exactly the keys of the non-empty
sections, in dictionary order: in single-line mode the non-empty ones among
education, experience, projects, skills, certifications, achievements,
extracurricular; in multi-line mode the non-empty ones among education,
experience, projects, skills. -/
theorem c5_sections_found_exact (raw : List Char) :
    (parse_resume raw).metadata.sections_found =
      ((if (splitOnC '\n' raw).length ≤ 3 then
          [(strL "education", (parse_resume raw).education),
           (strL "experience", (parse_resume raw).experience),
           (strL "projects", (parse_resume raw).projects),
           (strL "skills", (parse_resume raw).skills),
           (strL "certifications", (parse_resume raw).certifications),
           (strL "achievements", (parse_resume raw).achievements),
           (strL "extracurricular", (parse_resume raw).extracurricular)]
        else
          [(strL "education", (parse_resume raw).education),
           (strL "experience", (parse_resume raw).experience),
           (strL "projects", (parse_resume raw).projects),
           (strL "skills", (parse_resume raw).skills)]).filter
        fun kv => ¬ kv.2 = []).map Prod.fst := by
  by_cases h : (splitOnC '\n' raw).length ≤ 3
  · rw [if_pos h, parse_resume_single_of_le raw h, single_sections_found,
      sectionsFoundOf_eq_filter_map]
    rfl
  · rw [if_neg h, parse_resume_multi_of_gt raw h, multi_sections_found,
      sectionsFoundOf_eq_filter_map]

end ResumeParser

namespace ResumeParser

theorem mem_flagList {x k : List Char} {c : Prop} [Decidable c] :
    x ∈ (if c then [k] else []) ↔ x = k ∧ c := by
  split <;> simp_all

theorem mem_three_flags {x k1 k2 k3 : List Char} {c1 c2 c3 : Prop}
    [Decidable c1] [Decidable c2] [Decidable c3] :
    x ∈ (if c1 then [k1] else []) ++ (if c2 then [k2] else []) ++
        (if c3 then [k3] else []) ↔
      (x = k1 ∧ c1) ∨ (x = k2 ∧ c2) ∨ (x = k3 ∧ c3) := by
  split_ifs <;> simp [*]

theorem analyze_score_shape (p : ParsedResume) :
    (analyze_resume_quality p).completeness_score =
      ((if ¬ p.education = [] then 1 else 0) + (if ¬ p.experience = [] then 1 else 0) +
       (if ¬ p.projects = [] then 1 else 0) + (if ¬ p.skills = [] then 1 else 0)) *
        100 / 4 :=
  rfl

theorem analyze_missing_shape (p : ParsedResume) :
    (analyze_resume_quality p).missing_sections =
      (if p.education = [] then [strL "Education"] else []) ++
      (if p.experience = [] then [strL "Experience"] else []) ++
      (if p.projects = [] then [strL "Projects"] else []) ++
      (if p.skills = [] then [strL "Skills"] else []) :=
  rfl

theorem analyze_rec_shape (p : ParsedResume) :
    (analyze_resume_quality p).recommendations =
      (if (analyze_resume_quality p).completeness_score < 75
        then [recMissingSections] else []) ++
      (if p.skills.length < 5 then [recMoreSkills] else []) ++
      (if p.projects.length < 2 then [recMoreProjects] else []) :=
  rfl

/-- C7: `analyze_resume_quality` is a total function of the record; its
completeness score is 25 times the number of non-empty core sections (hence
in `[0, 100]` and a multiple of 25), `missing_sections` is exactly the
complement in human-readable names, and each of the three advisory strings
is present exactly when its threshold fires. -/
theorem c7_quality_analysis (p : ParsedResume) :
    (analyze_resume_quality p).completeness_score =
      ((if p.education = [] then 0 else 1) + (if p.experience = [] then 0 else 1) +
       (if p.projects = [] then 0 else 1) + (if p.skills = [] then 0 else 1)) * 25 ∧
    (analyze_resume_quality p).completeness_score ≤ 100 ∧
    25 ∣ (analyze_resume_quality p).completeness_score ∧
    (strL "Education" ∈ (analyze_resume_quality p).missing_sections ↔
      p.education = []) ∧
    (strL "Experience" ∈ (analyze_resume_quality p).missing_sections ↔
      p.experience = []) ∧
    (strL "Projects" ∈ (analyze_resume_quality p).missing_sections ↔
      p.projects = []) ∧
    (strL "Skills" ∈ (analyze_resume_quality p).missing_sections ↔
      p.skills = []) ∧
    (∀ m ∈ (analyze_resume_quality p).missing_sections,
      m ∈ [strL "Education", strL "Experience", strL "Projects", strL "Skills"]) ∧
    (recMissingSections ∈ (analyze_resume_quality p).recommendations ↔
      (analyze_resume_quality p).completeness_score < 75) ∧
    (recMoreSkills ∈ (analyze_resume_quality p).recommendations ↔
      p.skills.length < 5) ∧
    (recMoreProjects ∈ (analyze_resume_quality p).recommendations ↔
      p.projects.length < 2) := by
  refine ⟨?_, ?_, ?_, ?_, ?_, ?_, ?_, ?_, ?_, ?_, ?_⟩
  · by_cases h1 : p.education = [] <;> by_cases h2 : p.experience = [] <;>
      by_cases h3 : p.projects = [] <;> by_cases h4 : p.skills = [] <;>
      norm_num [analyze_score_shape, h1, h2, h3, h4]
  · by_cases h1 : p.education = [] <;> by_cases h2 : p.experience = [] <;>
      by_cases h3 : p.projects = [] <;> by_cases h4 : p.skills = [] <;>
      norm_num [analyze_score_shape, h1, h2, h3, h4]
  · by_cases h1 : p.education = [] <;> by_cases h2 : p.experience = [] <;>
      by_cases h3 : p.projects = [] <;> by_cases h4 : p.skills = [] <;>
      norm_num [analyze_score_shape, h1, h2, h3, h4]
  · by_cases h1 : p.education = [] <;> by_cases h2 : p.experience = [] <;>
      by_cases h3 : p.projects = [] <;> by_cases h4 : p.skills = [] <;>
      simp [analyze_missing_shape, h1, h2, h3, h4] <;> decide
  · by_cases h1 : p.education = [] <;> by_cases h2 : p.experience = [] <;>
      by_cases h3 : p.projects = [] <;> by_cases h4 : p.skills = [] <;>
      simp [analyze_missing_shape, h1, h2, h3, h4] <;> decide
  · by_cases h1 : p.education = [] <;> by_cases h2 : p.experience = [] <;>
      by_cases h3 : p.projects = [] <;> by_cases h4 : p.skills = [] <;>
      simp [analyze_missing_shape, h1, h2, h3, h4] <;> decide
  · by_cases h1 : p.education = [] <;> by_cases h2 : p.experience = [] <;>
      by_cases h3 : p.projects = [] <;> by_cases h4 : p.skills = [] <;>
      simp [analyze_missing_shape, h1, h2, h3, h4] <;> decide
  · by_cases h1 : p.education = [] <;> by_cases h2 : p.experience = [] <;>
      by_cases h3 : p.projects = [] <;> by_cases h4 : p.skills = [] <;>
      simp [analyze_missing_shape, h1, h2, h3, h4]
  · rw [analyze_rec_shape, mem_three_flags]
    constructor
    · rintro (⟨_, hc⟩ | ⟨he, _⟩ | ⟨he, _⟩)
      · exact hc
      · exact absurd (show recMissingSections = recMoreSkills from he) (by decide)
      · exact absurd (show recMissingSections = recMoreProjects from he) (by decide)
    · exact fun hc => Or.inl ⟨rfl, hc⟩
  · rw [analyze_rec_shape, mem_three_flags]
    constructor
    · rintro (⟨he, _⟩ | ⟨_, hc⟩ | ⟨he, _⟩)
      · exact absurd (show recMoreSkills = recMissingSections from he) (by decide)
      · exact hc
      · exact absurd (show recMoreSkills = recMoreProjects from he) (by decide)
    · exact fun hc => Or.inr (Or.inl ⟨rfl, hc⟩)
  · rw [analyze_rec_shape, mem_three_flags]
    constructor
    · rintro (⟨he, _⟩ | ⟨he, _⟩ | ⟨_, hc⟩)
      · exact absurd (show recMoreProjects = recMissingSections from he) (by decide)
      · exact absurd (show recMoreProjects = recMoreSkills from he) (by decide)
      · exact hc
    · exact fun hc => Or.inr (Or.inr ⟨rfl, hc⟩)
end ResumeParser

namespace ResumeParser

/-- C4 amended: in single-line mode each section is computed from the text
after its header keyword (which must be followed by whitespace) up to the
first match of the pattern's own lookahead list or the end of the string —
EXTRACURRICULAR is absent from the education and skills lookaheads; a
section whose header does not occur (followed by whitespace) is empty.  On
the claim's example the education content is the text between EDUCATION and
SKILLS, the skills content is the text between SKILLS and PROJECTS (one
entry "Python Java"), and the projects content is the text after PROJECTS. -/
theorem c4_single_line_sections (raw : List Char) :
    ((parse_resume_single_line raw).education =
      match sectionCapture (strL "EDUCATION")
          [strL "SKILLS", strL "PROJECTS", strL "CERTIFICATIONS",
           strL "ACHIEVEMENTS"] raw with
      | some c => extract_bullet_points (pyStrip c)
      | none => []) ∧
    ((parse_resume_single_line raw).skills =
      match sectionCapture (strL "SKILLS")
          [strL "PROJECTS", strL "CERTIFICATIONS", strL "ACHIEVEMENTS"] raw with
      | some c => extract_skills_from_text (pyStrip c)
      | none => []) ∧
    ((parse_resume_single_line raw).projects =
      match sectionCapture (strL "PROJECTS")
          [strL "CERTIFICATIONS", strL "ACHIEVEMENTS", strL "EXTRACURRICULAR"]
          raw with
      | some c => extract_projects_from_text (pyStrip c)
      | none => []) ∧
    ((parse_resume_single_line raw).certifications =
      match sectionCapture (strL "CERTIFICATIONS")
          [strL "ACHIEVEMENTS", strL "EXTRACURRICULAR"] raw with
      | some c => extract_bullet_points (pyStrip c)
      | none => []) ∧
    ((parse_resume_single_line raw).achievements =
      match sectionCapture (strL "ACHIEVEMENTS") [strL "EXTRACURRICULAR"] raw with
      | some c => extract_bullet_points (pyStrip c)
      | none => []) ∧
    ((parse_resume_single_line raw).extracurricular =
      match sectionCapture (strL "EXTRACURRICULAR") [] raw with
      | some c => extract_bullet_points (pyStrip c)
      | none => []) ∧
    (findKwWs (strL "EDUCATION") raw = none →
      (parse_resume_single_line raw).education = []) ∧
    (findKwWs (strL "SKILLS") raw = none →
      (parse_resume_single_line raw).skills = []) ∧
    (findKwWs (strL "PROJECTS") raw = none →
      (parse_resume_single_line raw).projects = []) ∧
    (findKwWs (strL "CERTIFICATIONS") raw = none →
      (parse_resume_single_line raw).certifications = []) ∧
    (findKwWs (strL "ACHIEVEMENTS") raw = none →
      (parse_resume_single_line raw).achievements = []) ∧
    (findKwWs (strL "EXTRACURRICULAR") raw = none →
      (parse_resume_single_line raw).extracurricular = []) ∧
    (sectionCapture (strL "EDUCATION")
        [strL "SKILLS", strL "PROJECTS", strL "CERTIFICATIONS",
         strL "ACHIEVEMENTS"]
        (strL "EDUCATION X Y SKILLS Python Java PROJECTS Foo") =
      some (strL "X Y ")) ∧
    (sectionCapture (strL "SKILLS")
        [strL "PROJECTS", strL "CERTIFICATIONS", strL "ACHIEVEMENTS"]
        (strL "EDUCATION X Y SKILLS Python Java PROJECTS Foo") =
      some (strL "Python Java ")) ∧
    (sectionCapture (strL "PROJECTS")
        [strL "CERTIFICATIONS", strL "ACHIEVEMENTS", strL "EXTRACURRICULAR"]
        (strL "EDUCATION X Y SKILLS Python Java PROJECTS Foo") =
      some (strL "Foo")) ∧
    (parse_resume_single_line
        (strL "EDUCATION X Y SKILLS Python Java PROJECTS Foo")).skills =
      [strL "Python Java"] := by
  refine ⟨rfl, rfl, rfl, rfl, rfl, rfl, ?_, ?_, ?_, ?_, ?_, ?_,
    by decide, by decide, by decide, by decide⟩ <;> intro h
  · show (match sectionCapture (strL "EDUCATION")
        [strL "SKILLS", strL "PROJECTS", strL "CERTIFICATIONS",
         strL "ACHIEVEMENTS"] raw with
      | some c => extract_bullet_points (pyStrip c)
      | none => []) = []
    simp [sectionCapture, h]
  · show (match sectionCapture (strL "SKILLS")
        [strL "PROJECTS", strL "CERTIFICATIONS", strL "ACHIEVEMENTS"] raw with
      | some c => extract_skills_from_text (pyStrip c)
      | none => []) = []
    simp [sectionCapture, h]
  · show (match sectionCapture (strL "PROJECTS")
        [strL "CERTIFICATIONS", strL "ACHIEVEMENTS", strL "EXTRACURRICULAR"]
        raw with
      | some c => extract_projects_from_text (pyStrip c)
      | none => []) = []
    simp [sectionCapture, h]
  · show (match sectionCapture (strL "CERTIFICATIONS")
        [strL "ACHIEVEMENTS", strL "EXTRACURRICULAR"] raw with
      | some c => extract_bullet_points (pyStrip c)
      | none => []) = []
    simp [sectionCapture, h]
  · show (match sectionCapture (strL "ACHIEVEMENTS") [strL "EXTRACURRICULAR"]
        raw with
      | some c => extract_bullet_points (pyStrip c)
      | none => []) = []
    simp [sectionCapture, h]
  · show (match sectionCapture (strL "EXTRACURRICULAR") [] raw with
      | some c => extract_bullet_points (pyStrip c)
      | none => []) = []
    simp [sectionCapture, h]

end ResumeParser

namespace ResumeParser

/-- Witness for C4 at the concrete input `""`: the EDUCATION header is
absent, so the education section is empty. -/
theorem c4_witness :
    findKwWs (strL "EDUCATION") (strL "") = none ∧
    (parse_resume_single_line (strL "")).education = [] :=
  ⟨by decide, (c4_single_line_sections (strL "")).2.2.2.2.2.2.1 (by decide)⟩

end ResumeParser

namespace ResumeParser

theorem clean_skill_stripped (s : List Char) :
    pyStrip (clean_skill s) = clean_skill s :=
  pyStrip_idem _

theorem mem_extract_bullet_points {e t : List Char}
    (h : e ∈ extract_bullet_points t) : pyStrip e = e ∧ 5 < e.length := by
  unfold extract_bullet_points at h
  generalize splitOnC '•' t = l at h
  induction l with
  | nil => simp at h
  | cons sec rest ih =>
    simp only [List.foldr_cons] at h
    by_cases hc : ¬ pyStrip sec = [] ∧ 5 < (pyStrip sec).length
    · rw [if_pos hc] at h
      rcases List.mem_cons.mp h with h | h
      · subst h
        exact ⟨pyStrip_idem _, hc.2⟩
      · exact ih h
    · rw [if_neg hc] at h
      exact ih h

theorem mem_extract_skill_items {e : List Char} {t : List Char}
    (h : e ∈ extract_skill_items t) :
    (∃ x, e = clean_skill x) ∧ ¬ e = [] := by
  unfold extract_skill_items at h
  have h' := List.mem_filter.mp h
  obtain ⟨x, _, hx⟩ := List.mem_map.mp h'.1
  refine ⟨⟨x, hx.symm⟩, ?_⟩
  have := h'.2
  simpa using this

theorem mem_extract_skills_from_text {e t : List Char}
    (h : e ∈ extract_skills_from_text t) :
    (∃ x, e = clean_skill x) ∧ ¬ e = [] := by
  unfold extract_skills_from_text at h
  have h1 := mem_dedupKeepFirst h
  generalize splitOnC '•' t = l at h1
  induction l with
  | nil => simp at h1
  | cons sec rest ih =>
    simp only [List.foldr_cons] at h1
    by_cases hc : pyStrip sec = []
    · rw [if_pos hc] at h1
      exact ih h1
    · rw [if_neg hc] at h1
      by_cases hcol : (pyStrip sec).contains ':'
      · rw [if_pos hcol] at h1
        rcases List.mem_append.mp h1 with h1 | h1
        · exact mem_extract_skill_items h1
        · exact ih h1
      · rw [if_neg hcol] at h1
        rcases List.mem_append.mp h1 with h1 | h1
        · exact mem_extract_skill_items h1
        · exact ih h1

theorem mem_extract_projects_from_text {e t : List Char}
    (h : e ∈ extract_projects_from_text t) :
    pyStrip e = e ∧ 3 < e.length := by
  unfold extract_projects_from_text at h
  have h1 := mem_dedupKeepFirst h
  by_cases hpat :
      (findall projParTry t ++ findall projToolsTry t).foldr
        (fun m acc =>
          let name := pyStrip m
          if 3 < name.length then name :: acc else acc) [] = []
  · rw [if_pos hpat] at h1
    generalize splitOnC '•' t = l at h1
    induction l with
    | nil => simp at h1
    | cons sec rest ih =>
      simp only [List.foldr_cons] at h1
      by_cases hc : ¬ pyStrip sec = [] ∧ 10 < (pyStrip sec).length
      · rw [if_pos hc] at h1
        rcases List.mem_cons.mp h1 with h1 | h1
        · subst h1
          exact ⟨pyStrip_idem _, by omega⟩
        · exact ih h1
      · rw [if_neg hc] at h1
        exact ih h1
  · rw [if_neg hpat] at h1
    generalize findall projParTry t ++ findall projToolsTry t = ms at h1
    induction ms with
    | nil => simp at h1
    | cons m rest ih =>
      simp only [List.foldr_cons] at h1
      by_cases hc : 3 < (pyStrip m).length
      · rw [if_pos hc] at h1
        rcases List.mem_cons.mp h1 with h1 | h1
        · subst h1
          exact ⟨pyStrip_idem _, hc⟩
        · exact ih h1
      · rw [if_neg hc] at h1
        exact ih h1

/-- Entries produced by the cleaning loop of `extract_skills_advanced`. -/
theorem mem_adv_cleaned {e : List Char} :
    ∀ {l init : List (List Char)},
      e ∈ (l.foldl
        (fun acc s =>
          let c := clean_skill s
          if ¬ c = [] ∧ 1 < c.length then acc ++ [c] else acc) init) →
      e ∈ init ∨ ∃ x, e = clean_skill x ∧ 1 < (clean_skill x).length := by
  intro l
  induction l with
  | nil => intro init h; exact Or.inl h
  | cons s rest ih =>
    intro init h
    simp only [List.foldl_cons] at h
    by_cases hc : ¬ clean_skill s = [] ∧ 1 < (clean_skill s).length
    · rw [if_pos hc] at h
      rcases ih h with h | h
      · rcases List.mem_append.mp h with h | h
        · exact Or.inl h
        · exact Or.inr ⟨s, (List.mem_singleton.mp h), by
            rw [← List.mem_singleton.mp h]
            rw [List.mem_singleton.mp h]
            exact hc.2⟩
      · exact Or.inr h
    · rw [if_neg hc] at h
      exact ih h

theorem mem_extract_skills_advanced {e : List Char} {sec : List (List Char)}
    (h : e ∈ extract_skills_advanced sec) :
    ∃ x, e = clean_skill x ∧ 1 < e.length := by
  unfold extract_skills_advanced at h
  have h1 := mem_dedupKeepFirst h
  rcases mem_adv_cleaned h1 with h2 | ⟨x, hx, hlen⟩
  · simp at h2
  · exact ⟨x, hx, hx ▸ hlen⟩

end ResumeParser

namespace ResumeParser

theorem single_education_shape (raw : List Char) :
    (parse_resume_single_line raw).education =
      match sectionCapture (strL "EDUCATION")
          [strL "SKILLS", strL "PROJECTS", strL "CERTIFICATIONS",
           strL "ACHIEVEMENTS"] raw with
      | some c => extract_bullet_points (pyStrip c)
      | none => [] :=
  rfl

theorem single_projects_shape (raw : List Char) :
    (parse_resume_single_line raw).projects =
      match sectionCapture (strL "PROJECTS")
          [strL "CERTIFICATIONS", strL "ACHIEVEMENTS", strL "EXTRACURRICULAR"]
          raw with
      | some c => extract_projects_from_text (pyStrip c)
      | none => [] :=
  rfl

theorem single_certifications_shape (raw : List Char) :
    (parse_resume_single_line raw).certifications =
      match sectionCapture (strL "CERTIFICATIONS")
          [strL "ACHIEVEMENTS", strL "EXTRACURRICULAR"] raw with
      | some c => extract_bullet_points (pyStrip c)
      | none => [] :=
  rfl

theorem single_achievements_shape (raw : List Char) :
    (parse_resume_single_line raw).achievements =
      match sectionCapture (strL "ACHIEVEMENTS") [strL "EXTRACURRICULAR"] raw with
      | some c => extract_bullet_points (pyStrip c)
      | none => [] :=
  rfl

theorem single_extracurricular_shape (raw : List Char) :
    (parse_resume_single_line raw).extracurricular =
      match sectionCapture (strL "EXTRACURRICULAR") [] raw with
      | some c => extract_bullet_points (pyStrip c)
      | none => [] :=
  rfl

/-- Any entry of a bullet-points-valued single-line section is stripped and
longer than 5 characters. -/
theorem mem_bullet_section {e : List Char} {cap : Option (List Char)}
    (h : e ∈ (match cap with
      | some c => extract_bullet_points (pyStrip c)
      | none => ([] : List (List Char)))) :
    pyStrip e = e ∧ 5 < e.length := by
  cases cap with
  | none => simp at h
  | some c => exact mem_extract_bullet_points h

/-- Any skills entry of `parse_resume` is stripped and non-empty. -/
theorem skills_entry_stripped_nonempty (raw : List Char) :
    ∀ e ∈ (parse_resume raw).skills, pyStrip e = e ∧ ¬ e = [] := by
  intro e he
  by_cases h : (splitOnC '\n' raw).length ≤ 3
  · rw [parse_resume_single_of_le raw h, single_skills] at he
    revert he
    cases sectionCapture (strL "SKILLS")
        [strL "PROJECTS", strL "CERTIFICATIONS", strL "ACHIEVEMENTS"] raw with
    | none => intro he; simp at he
    | some c =>
      intro he
      obtain ⟨⟨x, hx⟩, hne⟩ := mem_extract_skills_from_text he
      exact ⟨hx ▸ clean_skill_stripped x, hne⟩
  · rw [parse_resume_multi_of_gt raw h] at he
    obtain ⟨sec, hsec⟩ := multi_skills_shape raw
    rw [hsec] at he
    obtain ⟨x, hx, hlen⟩ := mem_extract_skills_advanced he
    refine ⟨hx ▸ clean_skill_stripped x, ?_⟩
    intro hnil
    rw [hnil] at hlen
    simp at hlen

/-- C6 amended: every skills entry (either mode) is non-empty after
trimming, and in single-line mode every entry of every section sequence is
non-empty after trimming.  (The multi-line advanced fallback can emit empty
strings; see the counterexample.) -/
theorem c6_trimmed_nonempty (raw : List Char) :
    (∀ e ∈ (parse_resume raw).skills, pyStrip e = e ∧ ¬ e = []) ∧
    ((splitOnC '\n' raw).length ≤ 3 →
      ∀ sec ∈ [(parse_resume raw).education, (parse_resume raw).experience,
        (parse_resume raw).projects, (parse_resume raw).skills,
        (parse_resume raw).certifications, (parse_resume raw).achievements,
        (parse_resume raw).extracurricular],
        ∀ e ∈ sec, pyStrip e = e ∧ ¬ e = []) := by
  refine ⟨skills_entry_stripped_nonempty raw, ?_⟩
  intro h sec hsec e he
  rw [parse_resume_single_of_le raw h] at hsec
  have bullets :
      ∀ {cap : Option (List Char)},
        e ∈ (match cap with
          | some c => extract_bullet_points (pyStrip c)
          | none => ([] : List (List Char))) →
        pyStrip e = e ∧ ¬ e = [] := by
    intro cap hm
    obtain ⟨h1, h2⟩ := mem_bullet_section hm
    exact ⟨h1, by intro hnil; rw [hnil] at h2; simp at h2⟩
  simp only [List.mem_cons, List.not_mem_nil, or_false] at hsec
  rcases hsec with h1 | h1 | h1 | h1 | h1 | h1 | h1
  · subst h1
    rw [single_education_shape raw] at he
    exact bullets he
  · subst h1
    simp [show (parse_resume_single_line raw).experience = [] from rfl] at he
  · subst h1
    rw [single_projects_shape raw] at he
    revert he
    cases sectionCapture (strL "PROJECTS")
        [strL "CERTIFICATIONS", strL "ACHIEVEMENTS", strL "EXTRACURRICULAR"]
        raw with
    | none => intro he; simp at he
    | some c =>
      intro he
      obtain ⟨h1, h2⟩ := mem_extract_projects_from_text he
      exact ⟨h1, by intro hnil; rw [hnil] at h2; simp at h2⟩
  · subst h1
    have := skills_entry_stripped_nonempty raw
    rw [parse_resume_single_of_le raw h] at this
    exact this e he
  · subst h1
    rw [single_certifications_shape raw] at he
    exact bullets he
  · subst h1
    rw [single_achievements_shape raw] at he
    exact bullets he
  · subst h1
    rw [single_extracurricular_shape raw] at he
    exact bullets he

/-- Witness for C6 at the concrete single-line input `"SKILLS X"`. -/
theorem c6_witness :
    (splitOnC '\n' (strL "SKILLS X")).length ≤ 3 ∧
    (∀ sec ∈ [(parse_resume (strL "SKILLS X")).education,
        (parse_resume (strL "SKILLS X")).experience,
        (parse_resume (strL "SKILLS X")).projects,
        (parse_resume (strL "SKILLS X")).skills,
        (parse_resume (strL "SKILLS X")).certifications,
        (parse_resume (strL "SKILLS X")).achievements,
        (parse_resume (strL "SKILLS X")).extracurricular],
      ∀ e ∈ sec, pyStrip e = e ∧ ¬ e = []) :=
  ⟨by decide, (c6_trimmed_nonempty (strL "SKILLS X")).2 (by decide)⟩

/-- C8 amended: in multi-line mode every skills entry has length at least 2;
in single-line mode entries are only guaranteed non-empty (length at least
1). -/
theorem c8_skill_lengths (raw : List Char) :
    (¬ (splitOnC '\n' raw).length ≤ 3 →
      ∀ e ∈ (parse_resume raw).skills, 2 ≤ e.length) ∧
    (∀ e ∈ (parse_resume raw).skills, 1 ≤ e.length) := by
  constructor
  · intro h e he
    rw [parse_resume_multi_of_gt raw h] at he
    obtain ⟨sec, hsec⟩ := multi_skills_shape raw
    rw [hsec] at he
    obtain ⟨x, hx, hlen⟩ := mem_extract_skills_advanced he
    omega
  · intro e he
    obtain ⟨_, hne⟩ := skills_entry_stripped_nonempty raw e he
    cases e with
    | nil => exact absurd rfl hne
    | cons c cs => simp

/-- Witness for C8 at a concrete multi-line input. -/
theorem c8_witness :
    ¬ (splitOnC '\n' (strL "x\ny\nz\nSKILLS\nPython, Java")).length ≤ 3 ∧
    (∀ e ∈ (parse_resume (strL "x\ny\nz\nSKILLS\nPython, Java")).skills,
      2 ≤ e.length) :=
  ⟨by decide, (c8_skill_lengths (strL "x\ny\nz\nSKILLS\nPython, Java")).1 (by decide)⟩

end ResumeParser

namespace ResumeParser

theorem ws_not_digit {c : Char} (h : pyWS c = true) : isDigitC c = false := by
  simp only [pyWS] at h
  simp only [decide_eq_true_eq] at h
  rcases h with h | h | h | h | h | h <;> subst h <;> decide

theorem chainOk_nil {bad : Char → Char → Bool} : chainOk bad [] = true := rfl

theorem chainOk_single {bad : Char → Char → Bool} {a : Char} :
    chainOk bad [a] = true := rfl

theorem chainOk_tail {bad : Char → Char → Bool} {a : Char} {l : List Char}
    (h : chainOk bad (a :: l) = true) : chainOk bad l = true := by
  cases l with
  | nil => rfl
  | cons b rest =>
    simp only [chainOk] at h
    exact (Bool.and_eq_true_iff.mp h).2

theorem chainOk_cons_iff {bad : Char → Char → Bool} {a : Char} {l : List Char} :
    chainOk bad (a :: l) = true ↔
      ((∀ b, l.head? = some b → bad a b = false) ∧ chainOk bad l = true) := by
  cases l with
  | nil => simp [chainOk]
  | cons b rest =>
    simp only [chainOk]
    constructor
    · intro h
      obtain ⟨h1, h2⟩ := Bool.and_eq_true_iff.mp h
      refine ⟨?_, h2⟩
      intro b' hb'
      simp only [List.head?_cons, Option.some.injEq] at hb'
      subst hb'
      simpa using h1
    · intro ⟨h1, h2⟩
      refine Bool.and_eq_true_iff.mpr ⟨?_, h2⟩
      have := h1 b (by rfl)
      simpa using this

theorem chainOk_head_pair {bad : Char → Char → Bool} {a b : Char}
    {rest : List Char} (h : chainOk bad (a :: b :: rest) = true) :
    bad a b = false := by
  simp only [chainOk] at h
  have := (Bool.and_eq_true_iff.mp h).1
  simpa using this

theorem chainOk_append_right {bad : Char → Char → Bool} :
    ∀ {u v : List Char}, chainOk bad (u ++ v) = true → chainOk bad v = true := by
  intro u
  induction u with
  | nil => exact fun h => h
  | cons a u ih =>
    intro v h
    exact ih (chainOk_tail h)

theorem chainOk_append_left {bad : Char → Char → Bool} :
    ∀ {u v : List Char}, chainOk bad (u ++ v) = true → chainOk bad u = true := by
  intro u
  induction u with
  | nil => intro v _; rfl
  | cons a u ih =>
    intro v h
    rw [List.cons_append] at h
    obtain ⟨h1, h2⟩ := chainOk_cons_iff.mp h
    refine chainOk_cons_iff.mpr ⟨?_, ih h2⟩
    intro b hb
    apply h1
    cases u with
    | nil => simp at hb
    | cons x xs =>
      simp only [List.head?_cons, Option.some.injEq] at hb
      subst hb
      rfl

theorem chainOk_dropWhile {bad : Char → Char → Bool} {p : Char → Bool} :
    ∀ {l : List Char}, chainOk bad l = true →
      chainOk bad (l.dropWhile p) = true := by
  intro l
  induction l with
  | nil => intro h; exact h
  | cons a l ih =>
    intro h
    by_cases hp : p a = true
    · rw [List.dropWhile_cons_of_pos hp]
      exact ih (chainOk_tail h)
    · rw [List.dropWhile_cons_of_neg (by simpa using hp)]
      exact h

theorem chainOk_pyStrip {bad : Char → Char → Bool} {l : List Char}
    (h : chainOk bad l = true) : chainOk bad (pyStrip l) = true := by
  unfold pyStrip
  have h1 : chainOk bad (List.dropWhile pyWS l) = true := chainOk_dropWhile h
  have hpre : List.rdropWhile pyWS (List.dropWhile pyWS l) <+:
      List.dropWhile pyWS l := List.rdropWhile_prefix _ _
  obtain ⟨t, ht⟩ := hpre
  rw [← ht] at h1
  exact chainOk_append_left h1

theorem chainOk_last_pair {bad : Char → Char → Bool} :
    ∀ {u : List Char} {b : Char} {v : List Char},
      chainOk bad (u ++ b :: v) = true →
      ∀ a, u.getLast? = some a → bad a b = false := by
  intro u
  induction u with
  | nil => intro b v _ a ha; simp at ha
  | cons x u ih =>
    intro b v h a ha
    cases u with
    | nil =>
      simp only [List.getLast?_singleton, Option.some.injEq] at ha
      subst ha
      exact chainOk_head_pair h
    | cons y us =>
      have ha' : (y :: us).getLast? = some a := by
        simpa [List.getLast?_cons_cons] using ha
      exact ih (chainOk_tail h) a ha'

theorem allWsSpace_sublist {l m : List Char} (hs : m.Sublist l)
    (h : allWsSpace l = true) : allWsSpace m = true := by
  unfold allWsSpace at *
  rw [List.all_eq_true] at *
  exact fun c hc => h c (hs.subset hc)

theorem allWsSpace_pyStrip {l : List Char} (h : allWsSpace l = true) :
    allWsSpace (pyStrip l) = true := by
  unfold pyStrip
  have h1 : allWsSpace (List.dropWhile pyWS l) = true :=
    allWsSpace_sublist ((List.dropWhile_suffix pyWS).sublist) h
  exact allWsSpace_sublist ((List.rdropWhile_prefix _ _).sublist) h1

end ResumeParser

namespace ResumeParser

/-- In a string with no whitespace-digit adjacency, the first character after
a leading whitespace run is not a digit. -/
theorem after_ws_not_digit :
    ∀ (cs : List Char) (c : Char), noWsDig (c :: cs) = true → pyWS c = true →
      ∀ b, (cs.dropWhile pyWS).head? = some b → isDigitC b = false := by
  intro cs
  induction cs with
  | nil => intro c _ _ b hb; simp at hb
  | cons d ds ih =>
    intro c h hws b hb
    by_cases hd : pyWS d = true
    · rw [List.dropWhile_cons_of_pos hd] at hb
      exact ih d (chainOk_tail h) hd b hb
    · rw [List.dropWhile_cons_of_neg (by simpa using hd)] at hb
      simp only [List.head?_cons, Option.some.injEq] at hb
      subst hb
      have hpair := chainOk_head_pair h
      simp only [Bool.and_eq_false_iff] at hpair
      rcases hpair with hpair | hpair
      · exact absurd hws (by simp [hpair])
      · exact hpair

theorem noWsDig_of_all_ws {l : List Char} (h : ∀ c ∈ l, pyWS c = true) :
    noWsDig l = true := by
  induction l with
  | nil => rfl
  | cons a l ih =>
    refine chainOk_cons_iff.mpr ⟨?_, ih fun c hc => h c (List.mem_cons_of_mem _ hc)⟩
    intro b hb
    have hbws : pyWS b = true := by
      apply h
      cases l with
      | nil => simp at hb
      | cons x xs =>
        simp only [List.head?_cons, Option.some.injEq] at hb
        rw [← hb]
        exact List.mem_cons_of_mem _ (List.mem_cons_self _ _)
    simp [ws_not_digit hbws]

/-- Builder: an all-whitespace buffer, a non-whitespace character that is not
a digit when the buffer is non-empty, and a good tail concatenate to a good
list. -/
theorem noWsDig_build :
    ∀ (pend : List Char) (c : Char) (X : List Char),
      (∀ a ∈ pend, pyWS a = true) → pyWS c = false →
      (pend = [] ∨ isDigitC c = false) → noWsDig X = true →
      noWsDig (pend ++ c :: X) = true := by
  intro pend
  induction pend with
  | nil =>
    intro c X _ hc _ hX
    refine chainOk_cons_iff.mpr ⟨?_, hX⟩
    intro b _
    simp [hc]
  | cons a pend ih =>
    intro c X hall hc hdig hX
    rw [List.cons_append]
    have haws : pyWS a = true := hall a (List.mem_cons_self _ _)
    refine chainOk_cons_iff.mpr ⟨?_, ?_⟩
    · intro b hb
      cases pend with
      | nil =>
        simp only [List.nil_append, List.head?_cons, Option.some.injEq] at hb
        have hdigc : isDigitC c = false := by
          rcases hdig with hdig | hdig
          · simp at hdig
          · exact hdig
        rw [← hb]
        simp [hdigc]
      | cons x xs =>
        simp only [List.cons_append, List.head?_cons, Option.some.injEq] at hb
        have hxws : pyWS x = true :=
          hall x (List.mem_cons_of_mem _ (List.mem_cons_self _ _))
        rw [← hb]
        simp [ws_not_digit hxws]
    · refine ih c X (fun x hx => hall x (List.mem_cons_of_mem _ hx)) hc ?_ hX
      rcases hdig with hdig | hdig
      · simp at hdig
      · exact Or.inr hdig

/-- The `numStripGo` scan never produces a whitespace-digit adjacency. -/
theorem noWsDig_numStripGo :
    ∀ (l : List Char) (st : NumSt) (pend : List Char),
      (∀ c ∈ pend, pyWS c = true) → noWsDig (numStripGo st pend l) = true := by
  intro l
  induction l with
  | nil =>
    intro st pend hall
    cases st with
    | norm => exact noWsDig_of_all_ws hall
    | digs => rfl
    | dot2 => rfl
  | cons c cs ih =>
    intro st pend hall
    cases st with
    | norm =>
      simp only [numStripGo]
      by_cases hws : pyWS c = true
      · rw [if_pos hws]
        refine ih .norm (pend ++ [c]) ?_
        intro x hx
        rcases List.mem_append.mp hx with hx | hx
        · exact hall x hx
        · rw [List.mem_singleton.mp hx]; exact hws
      · rw [if_neg hws]
        by_cases hd : isDigitC c = true ∧ ¬ pend = []
        · rw [if_pos hd]
          exact ih .digs [] (by simp)
        · rw [if_neg hd]
          have hdig : pend = [] ∨ isDigitC c = false := by
            by_cases hp : pend = []
            · exact Or.inl hp
            · right
              by_cases hdc : isDigitC c = true
              · exact absurd ⟨hdc, hp⟩ hd
              · simpa using hdc
          exact noWsDig_build pend c _ hall (by simpa using hws) hdig
            (ih .norm [] (by simp))
    | digs =>
      simp only [numStripGo]
      by_cases h1 : isDigitC c = true
      · rw [if_pos h1]; exact ih .digs [] (by simp)
      · rw [if_neg h1]
        by_cases h2 : c = '.'
        · rw [if_pos h2]; exact ih .dot2 [] (by simp)
        · rw [if_neg h2]
          by_cases h3 : pyWS c = true
          · rw [if_pos h3]
            refine ih .norm [c] ?_
            intro x hx
            rw [List.mem_singleton.mp hx]; exact h3
          · rw [if_neg h3]
            refine chainOk_cons_iff.mpr ⟨?_, ih .norm [] (by simp)⟩
            intro b _
            simp [show pyWS c = false by simpa using h3]
    | dot2 =>
      simp only [numStripGo]
      by_cases h1 : isDigitC c = true
      · rw [if_pos h1]; exact ih .dot2 [] (by simp)
      · rw [if_neg h1]
        by_cases h3 : pyWS c = true
        · rw [if_pos h3]
          refine ih .norm [c] ?_
          intro x hx
          rw [List.mem_singleton.mp hx]; exact h3
        · rw [if_neg h3]
          refine chainOk_cons_iff.mpr ⟨?_, ih .norm [] (by simp)⟩
          intro b _
          simp [show pyWS c = false by simpa using h3]

theorem noWsDig_numStrip (l : List Char) : noWsDig (numStrip l) = true :=
  noWsDig_numStripGo l .norm [] (by simp)

end ResumeParser

namespace ResumeParser

/-- On input with no whitespace-digit adjacency, the number-stripping scan in
the `norm` state flushes its buffer unchanged. -/
theorem numStripGo_norm_id :
    ∀ (l pend : List Char), (∀ c ∈ pend, pyWS c = true) →
      noWsDig (pend ++ l) = true → numStripGo .norm pend l = pend ++ l := by
  intro l
  induction l with
  | nil => intro pend _ _; simp [numStripGo]
  | cons c cs ih =>
    intro pend hall h
    simp only [numStripGo]
    by_cases hws : pyWS c = true
    · rw [if_pos hws]
      have hall' : ∀ x ∈ pend ++ [c], pyWS x = true := by
        intro x hx
        rcases List.mem_append.mp hx with hx | hx
        · exact hall x hx
        · rw [List.mem_singleton.mp hx]; exact hws
      have h' : noWsDig ((pend ++ [c]) ++ cs) = true := by
        rw [List.append_assoc]
        simpa using h
      rw [ih (pend ++ [c]) hall' h', List.append_assoc]
      rfl
    · rw [if_neg hws]
      by_cases hd : isDigitC c = true ∧ ¬ pend = []
      · exfalso
        obtain ⟨hdc, hpne⟩ := hd
        cases hpl : pend.getLast? with
        | none =>
          exact hpne (by simpa using hpl)
        | some a =>
          have haws : pyWS a = true :=
            hall a (List.mem_of_getLast?_eq_some hpl)
          have hbad := chainOk_last_pair h a hpl
          rw [haws, hdc] at hbad
          simp at hbad
      · rw [if_neg hd]
        have h' : noWsDig cs = true :=
          chainOk_tail (@chainOk_append_right (fun a b => pyWS a && isDigitC b)
            pend (c :: cs) h)
        rw [ih [] (by simp) (by simpa using h')]
        rfl

end ResumeParser

namespace ResumeParser

theorem numStrip_id {l : List Char} (h : noWsDig l = true) : numStrip l = l :=
  numStripGo_norm_id l [] (by simp) (by simpa using h)

theorem yearStripF_id :
    ∀ (n : Nat) (l : List Char), noWsDig l = true → yearStripF n l = l := by
  intro n
  induction n with
  | zero => intro l _; rfl
  | succ n ih =>
    intro l h
    cases l with
    | nil => rfl
    | cons c cs =>
      simp only [yearStripF]
      by_cases hws : pyWS c = true
      · rw [if_pos hws]
        have hnil : ((c :: cs).dropWhile pyWS).takeWhile isDigitC = [] := by
          cases hrest : (c :: cs).dropWhile pyWS with
          | nil => rfl
          | cons b bs =>
            have hb : isDigitC b = false := by
              apply after_ws_not_digit cs c h hws
              rw [List.dropWhile_cons_of_pos hws] at hrest
              rw [hrest]
              rfl
            rw [List.takeWhile_cons_of_neg (by simp [hb])]
        rw [hnil]
        simp only [List.length_nil]
        rw [if_neg (by omega)]
        rw [ih _ (chainOk_dropWhile h)]
        exact List.takeWhile_append_dropWhile pyWS (c :: cs)
      · rw [if_neg hws]
        rw [ih cs (chainOk_tail h)]

theorem yearStrip_id {l : List Char} (h : noWsDig l = true) : yearStrip l = l :=
  yearStripF_id l.length l h

theorem collapseGo_true_head? :
    ∀ (l : List Char), (collapseGo true l).head? = (l.dropWhile pyWS).head? := by
  intro l
  induction l with
  | nil => rfl
  | cons c cs ih =>
    simp only [collapseGo]
    by_cases hws : pyWS c = true
    · rw [if_pos hws, List.dropWhile_cons_of_pos hws]
      simpa using ih
    · rw [if_neg hws, List.dropWhile_cons_of_neg (by simpa using hws)]
      rfl

theorem collapseGo_cons_ws_true {c : Char} {cs : List Char} (h : pyWS c = true) :
    collapseGo true (c :: cs) = collapseGo true cs := by
  simp [collapseGo, h]

theorem collapseGo_cons_ws_false {c : Char} {cs : List Char} (h : pyWS c = true) :
    collapseGo false (c :: cs) = ' ' :: collapseGo true cs := by
  simp [collapseGo, h]

theorem collapseGo_cons_nws {c : Char} {cs : List Char} {flag : Bool}
    (h : pyWS c = false) :
    collapseGo flag (c :: cs) = c :: collapseGo false cs := by
  cases flag <;> simp [collapseGo, h]

/-- Collapsing preserves the absence of whitespace-digit adjacencies. -/
theorem noWsDig_collapseGo :
    ∀ (l : List Char), noWsDig l = true →
      (noWsDig (collapseGo false l) = true ∧ noWsDig (collapseGo true l) = true) := by
  intro l
  induction l with
  | nil => exact fun _ => ⟨rfl, rfl⟩
  | cons c cs ih =>
    intro h
    have ihcs := ih (chainOk_tail h)
    by_cases hws : pyWS c = true
    · constructor
      · rw [collapseGo_cons_ws_false hws]
        refine chainOk_cons_iff.mpr ⟨?_, ihcs.2⟩
        intro b hb
        rw [collapseGo_true_head?] at hb
        have hbd : isDigitC b = false := after_ws_not_digit cs c h hws b hb
        simp [hbd]
      · rw [collapseGo_cons_ws_true hws]
        exact ihcs.2
    · have hws' : pyWS c = false := by simpa using hws
      have hcons : noWsDig (c :: collapseGo false cs) = true := by
        refine chainOk_cons_iff.mpr ⟨?_, ihcs.1⟩
        intro b _
        simp [hws']
      exact ⟨by rw [collapseGo_cons_nws hws']; exact hcons,
        by rw [collapseGo_cons_nws hws']; exact hcons⟩

theorem allWsSpace_collapseGo :
    ∀ (l : List Char) (flag : Bool), allWsSpace (collapseGo flag l) = true := by
  intro l
  induction l with
  | nil => intro flag; rfl
  | cons c cs ih =>
    intro flag
    by_cases hws : pyWS c = true
    · cases flag with
      | true =>
        rw [collapseGo_cons_ws_true hws]
        exact ih true
      | false =>
        rw [collapseGo_cons_ws_false hws]
        unfold allWsSpace
        rw [List.all_cons]
        refine Bool.and_eq_true_iff.mpr ⟨by decide, ?_⟩
        simpa [allWsSpace] using ih true
    · have hws' : pyWS c = false := by simpa using hws
      rw [collapseGo_cons_nws hws']
      unfold allWsSpace
      rw [List.all_cons]
      refine Bool.and_eq_true_iff.mpr ⟨by simp [hws'], ?_⟩
      simpa [allWsSpace] using ih false

theorem noDoubleWS_collapseGo :
    ∀ (l : List Char) (flag : Bool), noDoubleWS (collapseGo flag l) = true := by
  intro l
  induction l with
  | nil => intro flag; rfl
  | cons c cs ih =>
    intro flag
    by_cases hws : pyWS c = true
    · cases flag with
      | true =>
        rw [collapseGo_cons_ws_true hws]
        exact ih true
      | false =>
        rw [collapseGo_cons_ws_false hws]
        refine chainOk_cons_iff.mpr ⟨?_, ih true⟩
        intro b hb
        rw [collapseGo_true_head?] at hb
        have hbnw : pyWS b = false := by
          cases hrest : (cs.dropWhile pyWS).head? with
          | none => rw [hrest] at hb; exact absurd hb (by simp)
          | some x =>
            rw [hrest] at hb
            have hx := List.head?_dropWhile_not pyWS cs
            rw [hrest] at hx
            simp only [Option.some.injEq] at hb
            rw [← hb]
            simpa using hx
        simp [hbnw]
    · have hws' : pyWS c = false := by simpa using hws
      rw [collapseGo_cons_nws hws']
      refine chainOk_cons_iff.mpr ⟨?_, ih false⟩
      intro b _
      simp [hws']

theorem collapseGo_true_eq_false {l : List Char}
    (h : ∀ b, l.head? = some b → pyWS b = false) :
    collapseGo true l = collapseGo false l := by
  cases l with
  | nil => rfl
  | cons c cs =>
    have hc : pyWS c = false := h c rfl
    simp only [collapseGo, hc]
    simp

theorem collapseGo_id :
    ∀ (l : List Char), noDoubleWS l = true → allWsSpace l = true →
      collapseGo false l = l := by
  intro l
  induction l with
  | nil => intro _ _; rfl
  | cons c cs ih =>
    intro hnd hws
    have hcs_nd : noDoubleWS cs = true := chainOk_tail hnd
    have hcs_ws : allWsSpace cs = true := by
      unfold allWsSpace at hws ⊢
      rw [List.all_cons] at hws
      exact (Bool.and_eq_true_iff.mp hws).2
    simp only [collapseGo]
    by_cases hc : pyWS c = true
    · rw [if_pos hc]
      have hsp : c = ' ' := by
        unfold allWsSpace at hws
        rw [List.all_cons] at hws
        have := (Bool.and_eq_true_iff.mp hws).1
        rcases Bool.or_eq_true_iff.mp this with h1 | h1
        · exact absurd hc (by simp [Bool.not_eq_true'] at h1 ⊢; exact h1)
        · simpa using h1
      have hhead : ∀ b, cs.head? = some b → pyWS b = false := by
        intro b hb
        have := chainOk_cons_iff.mp hnd
        have hbad := this.1 b hb
        simp only [Bool.and_eq_false_iff] at hbad
        rcases hbad with hbad | hbad
        · exact absurd hc (by simp [hbad])
        · exact hbad
      simp only [if_neg (by simp : ¬ false = true)]
      rw [collapseGo_true_eq_false hhead, ih hcs_nd hcs_ws, hsp]
    · rw [if_neg hc]
      rw [ih hcs_nd hcs_ws]

end ResumeParser

namespace ResumeParser

theorem conjStripL_id {l : List Char} (h : leadConjMatch l = false) :
    conjStripL l = l := by
  unfold leadConjMatch at h
  rw [Bool.or_eq_false_iff, Bool.or_eq_false_iff] at h
  obtain ⟨⟨h1, h2⟩, h3⟩ := h
  unfold conjStripL
  rw [if_neg (by simp [h1]), if_neg (by simp [h2]),
    if_neg (by
      intro hc
      rw [Bool.and_eq_true_iff] at hc
      rw [hc.1, hc.2] at h3
      simp at h3)]

theorem conjStripR_id {l : List Char} (h : trailConjMatch l = false) :
    conjStripR l = l := by
  unfold trailConjMatch at h
  rw [Bool.or_eq_false_iff, Bool.or_eq_false_iff] at h
  obtain ⟨⟨h1, h2⟩, h3⟩ := h
  unfold conjStripR
  rw [if_neg (by simp [h1]), if_neg (by simp [h2]),
    if_neg (by
      intro hc
      rw [Bool.and_eq_true_iff] at hc
      rw [hc.1, hc.2] at h3
      simp at h3)]

/-- The cleaned skill has no whitespace-digit adjacency, no double
whitespace, and only plain spaces as whitespace. -/
theorem clean_skill_normal (s : List Char) :
    noWsDig (clean_skill s) = true ∧ noDoubleWS (clean_skill s) = true ∧
      allWsSpace (clean_skill s) = true := by
  unfold clean_skill
  set v := conjStripR (conjStripL s) with hv
  have h1 : noWsDig (numStrip v) = true := noWsDig_numStrip v
  have h2 : yearStrip (numStrip v) = numStrip v := yearStrip_id h1
  rw [h2]
  unfold collapseWS
  refine ⟨chainOk_pyStrip (noWsDig_collapseGo _ h1).1,
    chainOk_pyStrip (noDoubleWS_collapseGo _ false),
    allWsSpace_pyStrip (allWsSpace_collapseGo _ false)⟩

/-- C9 counterexample: cleaning strips only one leading conjunction per
application, so `clean_skill` is not idempotent: cleaning `"and and x"`
yields `"and x"`, and cleaning that again yields `"x"`. -/
theorem c9_counterexample :
    clean_skill (strL "and and x") = strL "and x" ∧
    ¬ clean_skill (clean_skill (strL "and and x")) =
      clean_skill (strL "and and x") := by
  decide

/-- C9 amended: `clean_skill` is idempotent on every string whose cleaned
form neither starts with a conjunction followed by whitespace nor ends with
whitespace followed by a conjunction. -/
theorem c9_clean_skill_conditional_idempotent (s : List Char)
    (h1 : leadConjMatch (clean_skill s) = false)
    (h2 : trailConjMatch (clean_skill s) = false) :
    clean_skill (clean_skill s) = clean_skill s := by
  obtain ⟨hwd, hnd, hsp⟩ := clean_skill_normal s
  have hstrip : pyStrip (clean_skill s) = clean_skill s := clean_skill_stripped s
  show pyStrip (collapseWS (yearStrip (numStrip
      (conjStripR (conjStripL (clean_skill s)))))) = clean_skill s
  rw [conjStripL_id h1, conjStripR_id h2, numStrip_id hwd, yearStrip_id hwd]
  unfold collapseWS
  rw [collapseGo_id _ hnd hsp, hstrip]

/-- Witness for C9 at the concrete input `"and Python 3"`: the cleaned form
`"Python"` has no conjunction at either edge, and cleaning twice agrees with
cleaning once. -/
theorem c9_witness :
    leadConjMatch (clean_skill (strL "and Python 3")) = false ∧
    trailConjMatch (clean_skill (strL "and Python 3")) = false ∧
    clean_skill (clean_skill (strL "and Python 3")) =
      clean_skill (strL "and Python 3") :=
  ⟨by decide, by decide,
    c9_clean_skill_conditional_idempotent (strL "and Python 3")
      (by decide) (by decide)⟩

end ResumeParser
